import Mathlib

/-!
Verification of the orchestration core of AI-Agent-Studio
(`backend/app/services/team_manager.py`) against its specification.

The Python source is shallowly embedded below: Python dicts become ordered
association lists (insertion order preserved, later insert of an existing
key overwrites in place), missing string values are merged with the empty
string whenever Python only tests truthiness, exceptions become `Except`,
and the recursion of `_ensure_manager_unit` is made total with an explicit
fuel counter (the raised `ValueError` becomes `BuildErr.cycle`, fuel
exhaustion becomes the distinguished marker `BuildErr.fuel`, which is
proved unreachable for the supplied fuel).
-/

namespace TeamMgr

/-- Python `a or b` for strings: `""` is the only falsy string. -/
def pyOr (a b : String) : String := if a = "" then b else a

/-- Model of Python `str.lower()`: character-wise lowercasing (agrees on
ASCII data). -/
def pyLower (s : String) : String := ⟨s.data.map Char.toLower⟩

/-- Lookup in an ordered association list (Python `dict.get`). -/
def dlookup {α : Type} (l : List (String × α)) (k : String) : Option α :=
  match l with
  | [] => none
  | p :: rest => if p.1 = k then some p.2 else dlookup rest k

/-- Python dict assignment: overwrite in place if the key exists, else append. -/
def dictInsert {α : Type} (l : List (String × α)) (k : String) (v : α) :
    List (String × α) :=
  match l with
  | [] => [(k, v)]
  | p :: rest => if p.1 = k then (k, v) :: rest else p :: dictInsert rest k v

/-- Keys of an association list, in order. -/
def keysOf {α : Type} (l : List (String × α)) : List String := l.map (·.1)

/-- Python dict used as a set of keys (`self.tools[node_id] = tool`):
keep first insertion position. -/
def addKey (l : List String) (k : String) : List String :=
  if k ∈ l then l else l ++ [k]

/-! ## Data model: nodes, edges, settings -/

/-- The `data` payload of a graph node, restricted to the fields the
orchestration core reads.  `""` stands for an absent or falsy value for
`label`/`name` (Python only ever tests their truthiness); `strategy` keeps
the absent/present distinction because `data.get("strategy", "sequential")`
defaults only when the key is missing. -/
structure NodeData where
  label : String := ""
  name : String := ""
  strategy : Option String := none

/-- A graph node `{id, kind, data}`.  `kind = ""` stands for a missing kind
(the code only ever compares `kind` against non-empty literals). -/
structure Node where
  id : String
  kind : String := ""
  name : String := ""
  data : NodeData := {}

/-- A directed edge; `none` models a missing endpoint key. -/
structure Edge where
  source : Option String := none
  target : Option String := none

/-- The project settings fields read by the orchestrator. -/
structure Settings where
  teamDirectorLabel : Option String := none
  teamDirectorStrategy : Option String := none
  teamStrategy : Option String := none

/-- A tool-call record inside an agent stream update. -/
structure ToolCall where
  name : String
  args : String
deriving DecidableEq

/-- One update yielded by an agent capability's underlying stream.
`delta = none` / `toolCalls = none` model the attribute being absent
(`hasattr` false); `some ""` / `some []` model a present but falsy value. -/
structure Update where
  delta : Option String := none
  toolCalls : Option (List ToolCall) := none
  text : String := ""
deriving DecidableEq

/-- The behaviour of one agent-capability run: the updates it yields, then
optionally the message of an exception it raises. -/
structure RunOut where
  updates : List Update := []
  raises : Option String := none

/-- A constructed agent capability: message to run output. -/
def AgentBeh : Type := String → RunOut

/-- External collaborators (the agent and tool factories).
`buildTool = false` covers both a raised exception and a falsy return;
`createAgent = none` models `create_agent` raising. -/
structure Env where
  buildTool : Node → Bool
  createAgent : Node → List String → Option AgentBeh

/-- The runtime execution-unit tree (`AgentUnit` / `ManagerUnit`). -/
inductive EUnit : Type where
  | agent (id label : String) (beh : AgentBeh)
  | manager (id label kind strategy : String) (children : List EUnit)

def EUnit.uid : EUnit → String
  | .agent i _ _ => i
  | .manager i _ _ _ _ => i

def EUnit.label : EUnit → String
  | .agent _ l _ => l
  | .manager _ l _ _ _ => l

/-- `ExecutionUnit.kind`: `"agent"` for agent units, the stored kind for
manager units. -/
def EUnit.ukind : EUnit → String
  | .agent _ _ _ => "agent"
  | .manager _ _ k _ _ => k

/-- The `label` an `ExecutionUnit` computes in `__init__`:
`data.label or data.name or node.name or node.id`. -/
def labelOf (n : Node) : String :=
  pyOr n.data.label (pyOr n.data.name (pyOr n.name n.id))

/-- `AgentUnit(node, self, agent)`. -/
def mkAgentUnit (n : Node) (beh : AgentBeh) : EUnit :=
  .agent n.id (labelOf n) beh

/-- `ManagerUnit(node, self, children, kind)`: the declared strategy is
lowercased at construction, defaulting to `"sequential"` when absent. -/
def mkManagerUnit (n : Node) (children : List EUnit) (kind : String) : EUnit :=
  .manager n.id (labelOf n) kind (pyLower (n.data.strategy.getD "sequential")) children

/-! ## The static part of `TeamManager.__init__` -/

/-- The immutable inputs of a `TeamManager`. -/
structure TM where
  graphNodes : List Node
  edges : List Edge
  settings : Settings := {}

/-- `self.nodes = {n["id"]: n for n in nodes}`. -/
def nodesDict (tm : TM) : List (String × Node) :=
  tm.graphNodes.foldl (fun acc n => dictInsert acc n.id n) []

/-- `self.agent_node_ids`. -/
def agentNodeIds (tm : TM) : List String :=
  tm.graphNodes.filterMap (fun n => if n.kind = "agent" then some n.id else none)

/-- `self.manager_node_ids`. -/
def managerNodeIds (tm : TM) : List String :=
  tm.graphNodes.filterMap (fun n => if n.kind = "teamManager" then some n.id else none)

/-- `self.agent_nodes`. -/
def agentNodesD (tm : TM) : List (String × Node) :=
  (agentNodeIds tm).foldl
    (fun acc i =>
      match dlookup (nodesDict tm) i with
      | some n => dictInsert acc i n
      | none => acc) []

/-- `self.manager_nodes`. -/
def managerNodesD (tm : TM) : List (String × Node) :=
  (managerNodeIds tm).foldl
    (fun acc i =>
      match dlookup (nodesDict tm) i with
      | some n => dictInsert acc i n
      | none => acc) []

/-- `self.director_node`: the first node of kind `teamDirector`, if any. -/
def directorNode (tm : TM) : Option Node :=
  tm.graphNodes.find? (fun n => n.kind = "teamDirector")

/-- `self._incoming_index.get(t, [])`. -/
def incoming (tm : TM) (t : String) : List String :=
  tm.edges.filterMap (fun e =>
    match e.source, e.target with
    | some s, some tt =>
        if s ≠ "" ∧ tt ≠ "" ∧ tt = t then some s else none
    | _, _ => none)

/-- `TeamManager._resolve_children(source_id, allowed_kinds)` over a given
nodes dict; `allowed = []` models a falsy `allowed_kinds`. -/
def resolveChildren (nodes : List (String × Node)) (edges : List Edge)
    (sourceId : String) (allowed : List String) : List String :=
  edges.filterMap (fun e =>
    if e.source = some sourceId then
      match e.target with
      | none => none
      | some t =>
        if t = "" then none
        else
          match dlookup nodes t with
          | none => none
          | some tn =>
            if allowed = [] ∨ tn.kind ∈ allowed then some t else none
    else none)

/-- `TeamManager._compute_root_manager_ids`. -/
def computeRootManagerIds (tm : TM) : List String :=
  (managerNodeIds tm).filter (fun m =>
    ¬ (incoming tm m).any (fun p => (dlookup (managerNodesD tm) p).isSome))

/-! ## Mutable orchestrator state -/

/-- The mutable state of a `TeamManager` instance.  The two
`...FactoryCalls` fields are ghost logs recording every invocation of the
corresponding factory collaborator (the claim about idempotent build is
about these). -/
structure BState where
  nodes : List (String × Node)
  tools : List String := []
  agents : List String := []
  agentUnits : List (String × EUnit) := []
  managerUnits : List (String × EUnit) := []
  executionUnits : List (String × EUnit) := []
  directorUnit : Option EUnit := none
  rootManagerIds : List String := []
  built : Bool := false
  agentFactoryCalls : List (String × List String) := []
  toolFactoryCalls : List String := []

/-- The state of a freshly constructed `TeamManager`. -/
def initState (tm : TM) : BState := { nodes := nodesDict tm }

/-- The summary dict returned by `build()`. -/
structure Summary where
  agents : Nat
  team_managers : Nat
  tools : Nat
  director : Bool
deriving DecidableEq

def summaryOf (st : BState) : Summary :=
  { agents := st.agentUnits.length
    team_managers := st.managerUnits.length
    tools := st.tools.length
    director := st.directorUnit.isSome }

/-- The structural error raised during `build()`: the `ValueError` of the
cycle check, plus the distinguished fuel marker of the embedding. -/
inductive BuildErr : Type where
  | cycle (path : List String)
  | fuel
deriving DecidableEq

/-- The message of the raised `ValueError`. -/
def BuildErr.message : BuildErr → String
  | .cycle path =>
      "Circular team manager dependency detected: " ++ String.intercalate " -> " path
  | .fuel => "fuel exhausted"

/-! ## Build phase -/

/-- One iteration of the `_build_tools` loop. -/
def buildToolStep (env : Env) (s : BState) (p : String × Node) : BState :=
  if p.2.kind ≠ "tool" then s
  else
    let s2 := { s with toolFactoryCalls := s.toolFactoryCalls ++ [p.1] }
    if env.buildTool p.2 then { s2 with tools := addKey s2.tools p.1 } else s2

/-- `TeamManager._build_tools`. -/
def buildTools (env : Env) (st : BState) : BState :=
  st.nodes.foldl (buildToolStep env) st

/-- `TeamManager._build_agent_unit`. -/
def buildAgentUnit (env : Env) (tm : TM) (st : BState) (agentId : String) :
    BState × Option EUnit :=
  match dlookup st.agentUnits agentId with
  | some u => (st, some u)
  | none =>
    match (dlookup (agentNodesD tm) agentId).orElse (fun _ => dlookup st.nodes agentId) with
    | none => (st, none)
    | some node =>
      let toolIds := resolveChildren st.nodes tm.edges agentId ["tool"]
      let agentTools := toolIds.filter (fun t => t ∈ st.tools)
      let st1 := { st with agentFactoryCalls := st.agentFactoryCalls ++ [(agentId, agentTools)] }
      match env.createAgent node agentTools with
      | none => (st1, none)
      | some beh =>
        let unit := mkAgentUnit node beh
        ({ st1 with
            agents := addKey st1.agents agentId
            agentUnits := dictInsert st1.agentUnits agentId unit
            executionUnits := dictInsert st1.executionUnits agentId unit }, some unit)

/-- The child loop of `_ensure_manager_unit`, parameterized by the
recursive call (so the recursion is structural in the fuel). -/
def ensureChildren (env : Env) (tm : TM)
    (ensure : BState → String → Except BuildErr (BState × Option EUnit))
    (st : BState) : List String → Except BuildErr (BState × List EUnit)
  | [] => .ok (st, [])
  | c :: cs =>
    let step : Except BuildErr (BState × Option EUnit) :=
      match dlookup st.nodes c with
      | none => .ok (st, none)
      | some cn =>
        if cn.kind = "agent" then
          let r := buildAgentUnit env tm st c
          .ok (r.1, r.2)
        else if cn.kind = "teamManager" then ensure st c
        else .ok (st, none)
    match step with
    | .error e => .error e
    | .ok (st1, u) =>
      match ensureChildren env tm ensure st1 cs with
      | .error e => .error e
      | .ok (st2, us) =>
        .ok (st2, match u with | some x => x :: us | none => us)

/-- `TeamManager._ensure_manager_unit`, with explicit fuel.  The raised
cycle `ValueError` is `.error (.cycle (stack ++ [managerId]))`. -/
def ensureManagerUnit (env : Env) (tm : TM) :
    Nat → BState → String → List String → Except BuildErr (BState × Option EUnit)
  | 0, _, _, _ => .error .fuel
  | Nat.succ f, st, managerId, stack =>
    match dlookup st.managerUnits managerId with
    | some u => .ok (st, some u)
    | none =>
      match (dlookup (managerNodesD tm) managerId).orElse
          (fun _ => dlookup st.nodes managerId) with
      | none => .ok (st, none)
      | some node =>
        if managerId ∈ stack then .error (.cycle (stack ++ [managerId]))
        else
          let stack2 := stack ++ [managerId]
          let childIds := resolveChildren st.nodes tm.edges managerId ["agent", "teamManager"]
          match ensureChildren env tm
              (fun s c => ensureManagerUnit env tm f s c stack2) st childIds with
          | .error e => .error e
          | .ok (st2, childUnits) =>
            let unit := mkManagerUnit node childUnits "teamManager"
            .ok ({ st2 with
                    managerUnits := dictInsert st2.managerUnits managerId unit
                    executionUnits := dictInsert st2.executionUnits managerId unit },
                 some unit)

/-- The `for manager_id in self.manager_node_ids` loop of `build()`. -/
def buildManagersLoop (env : Env) (tm : TM) (fuel : Nat) :
    BState → List String → Except BuildErr BState
  | st, [] => .ok st
  | st, m :: ms =>
    match ensureManagerUnit env tm fuel st m [] with
    | .error e => .error e
    | .ok (st1, _) => buildManagersLoop env tm fuel st1 ms

/-- The node synthesized by `_build_director_unit` when no `teamDirector`
node is declared. -/
def synthDirectorNode (tm : TM) : Node :=
  { id := "teamDirector"
    kind := "teamDirector"
    data :=
      { label := tm.settings.teamDirectorLabel.getD "Team Director"
        strategy := some (pyOr (tm.settings.teamDirectorStrategy.getD "")
            (pyOr (tm.settings.teamStrategy.getD "") "sequential")) } }

/-- The child loop of `_build_director_unit`. -/
def directorChildrenLoop (env : Env) (tm : TM) (fuel : Nat) :
    BState → List String → Except BuildErr (BState × List EUnit)
  | st, [] => .ok (st, [])
  | st, c :: cs =>
    let step : Except BuildErr (BState × Option EUnit) :=
      match dlookup st.executionUnits c with
      | some u => .ok (st, some u)
      | none =>
        match dlookup st.nodes c with
        | none => .ok (st, none)
        | some cn =>
          if cn.kind = "agent" then
            let r := buildAgentUnit env tm st c
            .ok (r.1, r.2)
          else if cn.kind = "teamManager" then
            ensureManagerUnit env tm fuel st c []
          else .ok (st, none)
    match step with
    | .error e => .error e
    | .ok (st1, u) =>
      match directorChildrenLoop env tm fuel st1 cs with
      | .error e => .error e
      | .ok (st2, us) =>
        .ok (st2, match u with | some x => x :: us | none => us)

/-- `TeamManager._build_director_unit`. -/
def buildDirectorUnit (env : Env) (tm : TM) (fuel : Nat) (st : BState) :
    Except BuildErr BState :=
  let nc : Node × Bool :=
    match directorNode tm with
    | some n => (n, false)
    | none => (synthDirectorNode tm, true)
  let node := nc.1
  let st0 := if nc.2 then { st with nodes := dictInsert st.nodes node.id node } else st
  let childIds0 := resolveChildren st0.nodes tm.edges node.id ["teamManager", "agent"]
  let childIds :=
    if childIds0 ≠ [] then childIds0
    else if st0.rootManagerIds ≠ [] then st0.rootManagerIds
    else if managerNodeIds tm ≠ [] then managerNodeIds tm
    else agentNodeIds tm
  match directorChildrenLoop env tm fuel st0 childIds with
  | .error e => .error e
  | .ok (st1, children) =>
    if children.isEmpty then .ok { st1 with directorUnit := none }
    else
      let kind := if node.kind = "" then "teamDirector" else node.kind
      let d := mkManagerUnit node children kind
      .ok { st1 with
              directorUnit := some d
              executionUnits := dictInsert st1.executionUnits node.id d }

/-- `TeamManager.build()`.  The fuel handed to `_ensure_manager_unit` is one
more than the number of known nodes, proved sufficient below. -/
def build (env : Env) (tm : TM) (st : BState) : Except BuildErr (BState × Summary) :=
  if st.built then .ok (st, summaryOf st)
  else
    let fuel := st.nodes.length + 1
    let st1 := buildTools env st
    let st2 := (agentNodeIds tm).foldl (fun s a => (buildAgentUnit env tm s a).1) st1
    match buildManagersLoop env tm fuel st2 (managerNodeIds tm) with
    | .error e => .error e
    | .ok st3 =>
      let st4 := { st3 with rootManagerIds := computeRootManagerIds tm }
      match buildDirectorUnit env tm fuel st4 with
      | .error e => .error e
      | .ok st5 =>
        let st6 := { st5 with built := true }
        .ok (st6, summaryOf st6)

/-! ## Events and context -/

/-- The `context` dict attached to streamed events. -/
structure Context where
  unitId : Option String := none
  unitLabel : Option String := none
  unitKind : Option String := none
  lineage : Option (List String) := none
  via : Option String := none
  viaLabel : Option String := none
  viaKind : Option String := none
deriving DecidableEq

/-- The `data` dict of an event, restricted to the fields the core writes. -/
structure EventData where
  message : Option String := none
  delta : Option String := none
  name : Option String := none
  args : Option String := none
deriving DecidableEq

/-- A streamed event `{type, data, context?}`. -/
structure Event where
  type : String
  data : EventData := {}
  context : Option Context := none
deriving DecidableEq

def noticeEvent (m : String) : Event := { type := "notice", data := { message := some m } }

def errorEvent (m : String) : Event := { type := "error", data := { message := some m } }

def textEvent (d : String) : Event := { type := "text", data := { delta := some d } }

def toolCallEvent (n a : String) : Event :=
  { type := "tool_call", data := { name := some n, args := some a } }

/-- `setdefault` on an optional context field. -/
def setDefault (o : Option String) (v : String) : Option String :=
  match o with
  | some x => some x
  | none => some v

/-- `TeamManager._attach_context(event, unit_id, unit_label)`.  `ex` is the
`execution_units` registry projected to each unit's kind. -/
def attachContext (ex : List (String × String)) (e : Event) (unitId unitLabel : String) :
    Event :=
  let ctx : Context := e.context.getD {}
  let ctx1 :=
    { ctx with
        unitId := setDefault ctx.unitId unitId
        unitLabel := setDefault ctx.unitLabel unitLabel
        unitKind :=
          match dlookup ex unitId with
          | some k => setDefault ctx.unitKind k
          | none => ctx.unitKind }
  { e with context := some ctx1 }

/-- `TeamManager._append_parent_context(event, parent_unit)`. -/
def appendParentContext (parentId parentLabel parentKind : String) (e : Event) : Event :=
  let ctx : Context := e.context.getD {}
  let lin := ctx.lineage.getD []
  let lin2 := if parentId ∈ lin then lin else lin ++ [parentId]
  let ctx1 : Context :=
    { ctx with
        lineage := some lin2
        via := some parentId
        viaLabel := some parentLabel
        viaKind := some parentKind }
  { e with context := some ctx1 }

/-- Translation of one stream update in `_run_agent_stream`. -/
def updateEvents (u : Update) : List Event :=
  (match u.delta with
   | some d => if d ≠ "" then [textEvent d] else []
   | none => []) ++
  (match u.toolCalls with
   | some tcs =>
       if tcs ≠ [] then tcs.map (fun tc => toolCallEvent tc.name tc.args) else []
   | none => []) ++
  (if u.delta = none ∧ u.toolCalls = none then [textEvent u.text] else [])

/-- `TeamManager._run_agent_stream`: the underlying updates translated to
events; a raised exception is caught and becomes a single `error` event. -/
def runAgentStream (r : RunOut) : List Event :=
  r.updates.flatMap updateEvents ++
  (match r.raises with
   | some m => [errorEvent m]
   | none => [])

/-- The single quote character (for the unrecognized-strategy notice). -/
def squote : String := String.singleton (Char.ofNat 39)

def coordMsg (label : String) (n : Nat) (strat : String) : String :=
  label ++ " coordinating " ++ toString n ++ " member(s) via " ++
    pyOr strat "sequential" ++ " strategy"

def fallbackMsg (label strat : String) : String :=
  label ++ " does not recognize " ++ squote ++ strat ++ squote ++
    " strategy; defaulting to sequential execution"

/-- Fan-in of child streams in `_run_concurrent`: `order` picks which child
the shared queue delivers from next; an exhausted or out-of-range pick is
skipped; when `order` runs out the remaining events drain in child order.
Quantifying over `order` covers every arrival interleaving. -/
def mergeStreams (order : List Nat) (ss : List (List Event)) : List Event :=
  match order with
  | [] => ss.flatten
  | i :: rest =>
    match ss.get? i with
    | some (e :: es) => e :: mergeStreams rest (ss.set i es)
    | _ => mergeStreams rest ss

/-- `ManagerUnit._run_sequential`, given each child's label and raw stream. -/
def seqBody (ex : List (String × String)) (mid mlabel mkind : String)
    (pairs : List (String × List Event)) : List Event :=
  pairs.flatMap (fun p =>
    attachContext ex (noticeEvent (mlabel ++ " delegating to " ++ p.1)) mid mlabel ::
      p.2.map (appendParentContext mid mlabel mkind))

/-- `ManagerUnit.run_stream`, given the children's labels and raw streams. -/
def managerStream (ex : List (String × String)) (mid mlabel mkind strat : String)
    (childLabels : List String) (streams : List (List Event)) (order : List Nat) :
    List Event :=
  let coord := attachContext ex (noticeEvent (coordMsg mlabel childLabels.length strat))
      mid mlabel
  if childLabels.isEmpty then
    [coord,
     attachContext ex (errorEvent (mlabel ++ " has no assigned team members")) mid mlabel]
  else
    let seqB := seqBody ex mid mlabel mkind (childLabels.zip streams)
    let body :=
      if strat = "concurrent" then
        childLabels.map (fun cl =>
          attachContext ex (noticeEvent (mlabel ++ " launching " ++ cl ++ " concurrently"))
            mid mlabel) ++
        mergeStreams order (streams.map (List.map (appendParentContext mid mlabel mkind)))
      else if strat = "sequential" ∨ strat = "sequence" then seqB
      else attachContext ex (noticeEvent (fallbackMsg mlabel strat)) mid mlabel :: seqB
    coord :: body ++
      [attachContext ex (noticeEvent (mlabel ++ " finished coordination")) mid mlabel]

/-- `AgentUnit.run_stream`. -/
def agentUnitStream (ex : List (String × String)) (aid alabel : String) (beh : AgentBeh)
    (msg : String) : List Event :=
  attachContext ex (noticeEvent (alabel ++ " starting execution")) aid alabel ::
    (runAgentStream (beh msg)).map (fun e => attachContext ex e aid alabel) ++
    [attachContext ex (noticeEvent (alabel ++ " finished")) aid alabel]

mutual

/-- `ExecutionUnit.run_stream` for a built unit.  `sched` gives, per tree
path, the arrival order a concurrent manager at that path drains its fan-in
queue in; sequential execution ignores it. -/
def runUnit (ex : List (String × String)) (sched : List Nat → List Nat)
    (path : List Nat) (msg : String) : EUnit → List Event
  | .agent aid alabel beh => agentUnitStream ex aid alabel beh msg
  | .manager mid mlabel mkind strat children =>
    managerStream ex mid mlabel mkind strat (children.map EUnit.label)
      (childStreams ex sched path msg 0 children) (sched path)

/-- The raw streams of a manager's children, child `j` running at tree path
`path ++ [j]`. -/
def childStreams (ex : List (String × String)) (sched : List Nat → List Nat)
    (path : List Nat) (msg : String) (j : Nat) : List EUnit → List (List Event)
  | [] => []
  | c :: cs =>
    runUnit ex sched (path ++ [j]) msg c :: childStreams ex sched path msg (j + 1) cs

end

/-- `TeamManager._run_without_director`. -/
def runWithoutDirector (tm : TM) (st : BState) (ex : List (String × String))
    (sched : List Nat → List Nat) (msg : String) : List Event :=
  if st.rootManagerIds ≠ [] then
    st.rootManagerIds.flatMap (fun m =>
      match dlookup st.managerUnits m with
      | some u => runUnit ex sched [] msg u
      | none => [])
  else if ¬ st.managerUnits.isEmpty then
    (managerNodeIds tm).flatMap (fun m =>
      match dlookup st.managerUnits m with
      | some u => runUnit ex sched [] msg u
      | none => [])
  else
    (agentNodeIds tm).flatMap (fun a =>
      match dlookup st.agentUnits a with
      | some u => runUnit ex sched [] msg u
      | none => [])

/-- The `execution_units` registry projected to unit kinds. -/
def kindMapOf (st : BState) : List (String × String) :=
  st.executionUnits.map (fun p => (p.1, p.2.ukind))

/-- `TeamManager.run_stream(message, target)`.  The result is the list of
events the generator yields, the exception it ends with if the lazy build
raises (`none` when the run completes normally), and the state afterwards. -/
def runStream (env : Env) (tm : TM) (sched : List Nat → List Nat) (st : BState)
    (msg target : String) : List Event × Option BuildErr × BState :=
  let start := noticeEvent "Starting team execution..."
  match build env tm st with
  | .error e => ([start], some e, st)
  | .ok (st1, _) =>
    let ex := kindMapOf st1
    let mid : List Event :=
      if target = "team" then
        noticeEvent "Running team workflow" ::
          (match st1.directorUnit with
           | some d => runUnit ex sched [] msg d
           | none =>
             let evs := runWithoutDirector tm st1 ex sched msg
             if evs.isEmpty then [errorEvent "No agents or managers available"] else evs)
      else
        match dlookup st1.executionUnits target with
        | some u => runUnit ex sched [] msg u
        | none => [errorEvent ("Target " ++ target ++ " not found")]
    (start :: mid ++ [noticeEvent "Execution complete"], none, st1)

/-! ## General lemmas -/

theorem dlookup_dictInsert_self {α : Type} (l : List (String × α)) (k : String) (v : α) :
    dlookup (dictInsert l k v) k = some v := by
  induction l with
  | nil => simp [dictInsert, dlookup]
  | cons p rest ih =>
    by_cases h : p.1 = k
    · simp [dictInsert, dlookup, h]
    · simp [dictInsert, dlookup, h, ih]

/-- A successful `build()` leaves the built flag set and returns the summary
of the final state. -/
theorem build_ok_built {env : Env} {tm : TM} {st st1 : BState} {s : Summary}
    (h : build env tm st = .ok (st1, s)) : st1.built = true ∧ s = summaryOf st1 := by
  unfold build at h
  split at h
  · simp only [Except.ok.injEq, Prod.mk.injEq] at h
    obtain ⟨h1, h2⟩ := h
    subst h1; subst h2
    constructor
    · assumption
    · rfl
  · simp only at h
    split at h
    · exact absurd h (by simp)
    · split at h
      · exact absurd h (by simp)
      · simp only [Except.ok.injEq, Prod.mk.injEq] at h
        obtain ⟨h1, h2⟩ := h
        subst h1; subst h2
        exact ⟨rfl, rfl⟩

/-! ## C7: idempotent build -/

/-- C7 (confirmed).  A second `build()` on the orchestrator state produced
by a successful `build()` returns the very same summary and the very same
state — in particular the ghost factory-call logs `agentFactoryCalls` and
`toolFactoryCalls` are unchanged, i.e. neither the agent factory nor the
tool factory is invoked again. -/
theorem build_idempotent {env : Env} {tm : TM} {st st1 : BState} {s1 : Summary}
    (h : build env tm st = .ok (st1, s1)) : build env tm st1 = .ok (st1, s1) := by
  obtain ⟨hb, hs⟩ := build_ok_built h
  subst hs
  unfold build
  simp [hb]

def envC7 : Env :=
  { buildTool := fun _ => true
    createAgent := fun _ _ => some (fun _ => { updates := [{ delta := some "d" }] }) }

def tmC7 : TM :=
  { graphNodes :=
      [ { id := "t1", kind := "tool", data := { label := "T1" } }
      , { id := "a1", kind := "agent", data := { label := "A1" } }
      , { id := "m1", kind := "teamManager", data := { label := "M1" } } ]
    edges :=
      [ { source := some "m1", target := some "a1" }
      , { source := some "t1", target := some "a1" } ] }

def c7FirstBuild : Except BuildErr (BState × Summary) := build envC7 tmC7 (initState tmC7)

def c7St1 : BState :=
  match c7FirstBuild with
  | .ok (a, _) => a
  | .error _ => initState tmC7

def c7S1 : Summary :=
  match c7FirstBuild with
  | .ok (_, b) => b
  | .error _ => summaryOf (initState tmC7)

/-- Witness for C7 at a concrete three-node project. -/
theorem build_idempotent_witness : build envC7 tmC7 c7St1 = .ok (c7St1, c7S1) :=
  build_idempotent (rfl : build envC7 tmC7 (initState tmC7) = .ok (c7St1, c7S1))

/-! ## C2: bracketing of `run_stream` -/

/-- C2 (corrected).  Every event sequence `run_stream` produces begins with
the `Starting team execution...` notice; and it ends with the
`Execution complete` notice **provided** the lazy `build()` performed
inside the run does not raise.  (The original claim asserts the trailing
notice unconditionally; the counterexample below shows it is missing when
the lazy build raises a cycle error.) -/
theorem runStream_brackets (env : Env) (tm : TM) (sched : List Nat → List Nat)
    (st : BState) (msg target : String) :
    (runStream env tm sched st msg target).1.head? =
      some (noticeEvent "Starting team execution...") ∧
    ((runStream env tm sched st msg target).2.1 = none →
      (runStream env tm sched st msg target).1.getLast? =
        some (noticeEvent "Execution complete")) := by
  unfold runStream
  cases hb : build env tm st with
  | error e => simp
  | ok r =>
    simp only
    constructor
    · rfl
    · intro _
      rw [show noticeEvent "Starting team execution..." ::
            (if target = "team" then
              noticeEvent "Running team workflow" ::
                (match r.1.directorUnit with
                 | some d => runUnit (kindMapOf r.1) sched [] msg d
                 | none =>
                   let evs := runWithoutDirector tm r.1 (kindMapOf r.1) sched msg
                   if evs.isEmpty then [errorEvent "No agents or managers available"]
                   else evs)
            else
              match dlookup r.1.executionUnits target with
              | some u => runUnit (kindMapOf r.1) sched [] msg u
              | none => [errorEvent ("Target " ++ target ++ " not found")]) ++
            [noticeEvent "Execution complete"] =
          (noticeEvent "Starting team execution..." ::
            (if target = "team" then
              noticeEvent "Running team workflow" ::
                (match r.1.directorUnit with
                 | some d => runUnit (kindMapOf r.1) sched [] msg d
                 | none =>
                   let evs := runWithoutDirector tm r.1 (kindMapOf r.1) sched msg
                   if evs.isEmpty then [errorEvent "No agents or managers available"]
                   else evs)
            else
              match dlookup r.1.executionUnits target with
              | some u => runUnit (kindMapOf r.1) sched [] msg u
              | none => [errorEvent ("Target " ++ target ++ " not found")])) ++
            [noticeEvent "Execution complete"] from by simp]
      exact List.getLast?_concat _

def envC2 : Env :=
  { buildTool := fun _ => true
    createAgent := fun _ _ => some (fun _ => { updates := [] }) }

def cycC2 : TM :=
  { graphNodes :=
      [ { id := "m1", kind := "teamManager", data := { label := "M1" } }
      , { id := "m2", kind := "teamManager", data := { label := "M2" } }
      , { id := "m3", kind := "teamManager", data := { label := "M3" } } ]
    edges :=
      [ { source := some "m1", target := some "m2" }
      , { source := some "m2", target := some "m3" }
      , { source := some "m3", target := some "m1" } ] }

/-- Counterexample to C2 as stated: with a manager cycle in the graph and a
lazily built hierarchy, the run's event sequence is the single start notice
— the cycle error escapes as an exception and the trailing
`Execution complete` notice is never produced. -/
theorem runStream_brackets_counterexample :
    (runStream envC2 cycC2 (fun _ => []) (initState cycC2) "hello" "team").1 =
      [noticeEvent "Starting team execution..."] ∧
    (runStream envC2 cycC2 (fun _ => []) (initState cycC2) "hello" "team").2.1 =
      some (.cycle ["m1", "m2", "m3", "m1"]) ∧
    (runStream envC2 cycC2 (fun _ => []) (initState cycC2) "hello" "team").1.getLast? ≠
      some (noticeEvent "Execution complete") := by
  refine ⟨rfl, rfl, ?_⟩
  decide

/-- Witness for C2 (amended) at a concrete acyclic project. -/
theorem runStream_brackets_witness :
    (runStream envC7 tmC7 (fun _ => []) (initState tmC7) "hello" "team").1.head? =
      some (noticeEvent "Starting team execution...") ∧
    (runStream envC7 tmC7 (fun _ => []) (initState tmC7) "hello" "team").1.getLast? =
      some (noticeEvent "Execution complete") :=
  ⟨(runStream_brackets envC7 tmC7 (fun _ => []) (initState tmC7) "hello" "team").1,
   (runStream_brackets envC7 tmC7 (fun _ => []) (initState tmC7) "hello" "team").2 rfl⟩

/-! ## C4: empty-team manager -/

/-- C4 (corrected).  A `ManagerUnit` with zero children emits its
coordinating notice and then exactly one `error` event whose message names
the manager — and nothing else: the early `return` means the
`finished coordination` notice of step 4 is **not** emitted for an empty
team (the original claim asserts it follows the error). -/
theorem emptyTeam_stream (ex : List (String × String)) (sched : List Nat → List Nat)
    (path : List Nat) (msg mid mlabel mkind strat : String) :
    runUnit ex sched path msg (.manager mid mlabel mkind strat []) =
      [attachContext ex (noticeEvent (coordMsg mlabel 0 strat)) mid mlabel,
       attachContext ex (errorEvent (mlabel ++ " has no assigned team members"))
         mid mlabel] := by
  simp [runUnit, childStreams, managerStream]

/-- Counterexample to C4 as stated: for a concrete empty manager the stream
is the coordinating notice and the error only; no event carrying the
`finished coordination` message follows. -/
theorem emptyTeam_counterexample :
    runUnit [] (fun _ => []) [] "hi" (.manager "m1" "M1" "teamManager" "sequential" []) =
      [attachContext [] (noticeEvent (coordMsg "M1" 0 "sequential")) "m1" "M1",
       attachContext [] (errorEvent "M1 has no assigned team members") "m1" "M1"] ∧
    (runUnit [] (fun _ => []) [] "hi"
        (.manager "m1" "M1" "teamManager" "sequential" [])).all
      (fun e => e.data.message ≠ some "M1 finished coordination") = true := by
  constructor
  · simp [runUnit, childStreams, managerStream]
  · decide

/-! ## C3: tool-binding edge direction -/

def envC3 : Env :=
  { buildTool := fun _ => true
    createAgent := fun _ _ => some (fun _ => { updates := [] }) }

/-- The repository's own graph convention (canvas generator, deliverables
graph builder, spec): a tool binds to an agent via a `tool → agent` edge. -/
def toolAgentTM : TM :=
  { graphNodes :=
      [ { id := "tool-1", kind := "tool", data := { label := "Yahoo Finance" } }
      , { id := "agent-1", kind := "agent", data := { label := "Finance Analyst" } } ]
    edges := [ { source := some "tool-1", target := some "agent-1" } ] }

/-- The same two nodes with the edge reversed (`agent → tool`). -/
def toolAgentRevTM : TM :=
  { graphNodes :=
      [ { id := "tool-1", kind := "tool", data := { label := "Yahoo Finance" } }
      , { id := "agent-1", kind := "agent", data := { label := "Finance Analyst" } } ]
    edges := [ { source := some "agent-1", target := some "tool-1" } ] }

/-- C3 (code bug).  `_build_agent_unit` resolves an agent's tools with
`_resolve_children(agent_id, {"tool"})`, which scans edges whose **source**
is the agent: on the repo-convention graph with the single edge
`tool-1 → agent-1` the tool builds successfully but the agent factory is
invoked with an empty tool list, while the reversed edge
`agent-1 → tool-1` does create the binding — exactly backwards from the
claim (and from the graphs the repository itself generates). -/
theorem toolBinding_direction_bug :
    resolveChildren (nodesDict toolAgentTM) toolAgentTM.edges "agent-1" ["tool"] = [] ∧
    (build envC3 toolAgentTM (initState toolAgentTM)).toOption.map
        (fun r => (r.1.agentFactoryCalls, r.1.tools)) =
      some ([("agent-1", [])], ["tool-1"]) ∧
    resolveChildren (nodesDict toolAgentRevTM) toolAgentRevTM.edges "agent-1" ["tool"] =
      ["tool-1"] ∧
    (build envC3 toolAgentRevTM (initState toolAgentRevTM)).toOption.map
        (fun r => (r.1.agentFactoryCalls, r.1.tools)) =
      some ([("agent-1", ["tool-1"])], ["tool-1"]) :=
  ⟨rfl, rfl, rfl, rfl⟩

/-! ## C10: synthesized director registration -/

/-- C10 (confirmed).  When no `teamDirector` node is declared and the
director unit is synthesized, it is registered in `execution_units` under
the fixed id `"teamDirector"`, and `run_stream(msg, target="teamDirector")`
resolves to it and runs the whole team rather than yielding the
`Target teamDirector not found` error event. -/
theorem synthesized_director_registered {env : Env} {tm : TM} {st1 : BState}
    {s : Summary} {u : EUnit} (sched : List Nat → List Nat) (msg : String)
    (hd : directorNode tm = none)
    (hb : build env tm (initState tm) = .ok (st1, s))
    (hu : st1.directorUnit = some u) :
    dlookup st1.executionUnits "teamDirector" = some u ∧
    runStream env tm sched (initState tm) msg "teamDirector" =
      (noticeEvent "Starting team execution..." ::
        runUnit (kindMapOf st1) sched [] msg u ++ [noticeEvent "Execution complete"],
       none, st1) := by
  have hlook : dlookup st1.executionUnits "teamDirector" = some u := by
    unfold build at hb
    split at hb
    · rename_i hbuilt
      simp [initState] at hbuilt
    · simp only at hb
      split at hb
      · exact absurd hb (by simp)
      · rename_i st3 hml
        split at hb
        · exact absurd hb (by simp)
        · rename_i st5 hdir
          simp only [Except.ok.injEq, Prod.mk.injEq] at hb
          obtain ⟨hb1, _⟩ := hb
          unfold buildDirectorUnit at hdir
          rw [hd] at hdir
          simp only at hdir
          split at hdir
          · exact absurd hdir (by simp)
          · rename_i st4 children hloop
            split at hdir
            · rename_i hempty
              simp only [Except.ok.injEq] at hdir
              subst hdir
              rw [← hb1] at hu
              simp at hu
            · simp only [Except.ok.injEq] at hdir
              subst hdir
              rw [← hb1] at hu
              simp only at hu
              rw [← hb1]
              simp only
              rw [show (synthDirectorNode tm).id = "teamDirector" from rfl]
              rw [dlookup_dictInsert_self]
              rw [hu]
  refine ⟨hlook, ?_⟩
  unfold runStream
  rw [hb]
  simp only
  rw [if_neg (by decide : ¬ ("teamDirector" = "team"))]
  rw [hlook]

def envC10 : Env :=
  { buildTool := fun _ => true
    createAgent := fun _ _ => some (fun _ => { updates := [{ delta := some "d" }] }) }

def tmC10 : TM :=
  { graphNodes :=
      [ { id := "a1", kind := "agent", data := { label := "A1" } }
      , { id := "m1", kind := "teamManager", data := { label := "M1" } } ]
    edges := [ { source := some "m1", target := some "a1" } ] }

def c10Build : Except BuildErr (BState × Summary) := build envC10 tmC10 (initState tmC10)

def c10St1 : BState :=
  match c10Build with
  | .ok (a, _) => a
  | .error _ => initState tmC10

def c10S1 : Summary :=
  match c10Build with
  | .ok (_, b) => b
  | .error _ => summaryOf (initState tmC10)

def c10Dir : EUnit :=
  match c10St1.directorUnit with
  | some u => u
  | none => .manager "" "" "" "" []

/-- Witness for C10 at a concrete project with one manager and one agent
and no declared director. -/
theorem synthesized_director_registered_witness :
    dlookup c10St1.executionUnits "teamDirector" = some c10Dir ∧
    runStream envC10 tmC10 (fun _ => []) (initState tmC10) "hello" "teamDirector" =
      (noticeEvent "Starting team execution..." ::
        runUnit (kindMapOf c10St1) (fun _ => []) [] "hello" c10Dir ++
          [noticeEvent "Execution complete"],
       none, c10St1) :=
  synthesized_director_registered (fun _ => []) "hello" rfl
    (rfl : build envC10 tmC10 (initState tmC10) = .ok (c10St1, c10S1)) rfl

/-! ## C9: case-insensitive strategies and the `sequence` alias -/

/-- The delegation notices and forwarded streams of sequential execution. -/
def seqRun (ex : List (String × String)) (sched : List Nat → List Nat)
    (path : List Nat) (msg mid mlabel mkind : String) (children : List EUnit) :
    List Event :=
  seqBody ex mid mlabel mkind
    ((children.map EUnit.label).zip (childStreams ex sched path msg 0 children))

def coordNotice (ex : List (String × String)) (mid mlabel strat : String) (n : Nat) :
    Event :=
  attachContext ex (noticeEvent (coordMsg mlabel n strat)) mid mlabel

def finNotice (ex : List (String × String)) (mid mlabel : String) : Event :=
  attachContext ex (noticeEvent (mlabel ++ " finished coordination")) mid mlabel

def fallbackNotice (ex : List (String × String)) (mid mlabel strat : String) : Event :=
  attachContext ex (noticeEvent (fallbackMsg mlabel strat)) mid mlabel

/-- C9 (confirmed).  The declared strategy is lowercased at unit
construction; a manager whose strategy lowercases to `"sequence"` runs the
sequential behaviour with no unrecognized-strategy fallback notice
(identical, after the coordinating notice, to a `"sequential"` manager);
`"concurrent"` takes the concurrent branch; and a strategy outside
`{"concurrent", "sequential", "sequence"}` produces exactly the fallback
notice followed by sequential execution. -/
theorem strategy_sequence_alias (ex : List (String × String))
    (sched : List Nat → List Nat) (path : List Nat)
    (msg mid mlabel mkind : String) (children : List EUnit) (hne : children ≠ []) :
    (∀ n : Node, ∀ s : String, n.data.strategy = some s →
        mkManagerUnit n children "teamManager" =
          .manager n.id (labelOf n) "teamManager" (pyLower s) children) ∧
    runUnit ex sched path msg (.manager mid mlabel mkind "sequence" children) =
      coordNotice ex mid mlabel "sequence" children.length ::
        seqRun ex sched path msg mid mlabel mkind children ++
        [finNotice ex mid mlabel] ∧
    (runUnit ex sched path msg (.manager mid mlabel mkind "sequence" children)).tail =
      (runUnit ex sched path msg (.manager mid mlabel mkind "sequential" children)).tail ∧
    runUnit ex sched path msg (.manager mid mlabel mkind "concurrent" children) =
      coordNotice ex mid mlabel "concurrent" children.length ::
        ((children.map EUnit.label).map (fun cl =>
          attachContext ex (noticeEvent (mlabel ++ " launching " ++ cl ++ " concurrently"))
            mid mlabel) ++
         mergeStreams (sched path)
           ((childStreams ex sched path msg 0 children).map
             (List.map (appendParentContext mid mlabel mkind)))) ++
        [finNotice ex mid mlabel] ∧
    (∀ s : String, pyLower s ∉ ["concurrent", "sequential", "sequence"] →
      runUnit ex sched path msg (.manager mid mlabel mkind (pyLower s) children) =
        coordNotice ex mid mlabel (pyLower s) children.length ::
          fallbackNotice ex mid mlabel (pyLower s) ::
          seqRun ex sched path msg mid mlabel mkind children ++
          [finNotice ex mid mlabel]) := by
  have hle : (children.map EUnit.label).isEmpty = false := by
    cases children with
    | nil => exact absurd rfl hne
    | cons c cs => rfl
  refine ⟨?_, ?_, ?_, ?_, ?_⟩
  · intro n s hs
    simp [mkManagerUnit, hs]
  · simp [runUnit, managerStream, hle, coordNotice, finNotice, seqRun]
  · simp [runUnit, managerStream, hle]
  · simp [runUnit, managerStream, hle, coordNotice, finNotice]
  · intro s hs
    simp only [List.mem_cons, List.mem_singleton, not_or] at hs
    obtain ⟨h1, h2, h3⟩ := hs
    simp [runUnit, managerStream, hle, h1, h2, h3, coordNotice, finNotice,
      fallbackNotice, seqRun]

def c9ax : EUnit := .agent "ax" "AX" (fun _ => { updates := [] })

/-- Witness for C9: a one-child manager whose declared strategy is the
mixed-case string `"Sequence"`. -/
theorem strategy_sequence_alias_witness :
    (mkManagerUnit
        { id := "m", kind := "teamManager",
          data := { label := "M", strategy := some "Sequence" } } [c9ax] "teamManager" =
      .manager "m" "M" "teamManager" (pyLower "Sequence") [c9ax]) ∧
    runUnit [] (fun _ => []) [] "go" (.manager "m" "M" "teamManager" "sequence" [c9ax]) =
      coordNotice [] "m" "M" "sequence" 1 ::
        seqRun [] (fun _ => []) [] "go" "m" "M" "teamManager" [c9ax] ++
        [finNotice [] "m" "M"] ∧
    runUnit [] (fun _ => []) [] "go" (.manager "m" "M" "teamManager" (pyLower "Random") [c9ax]) =
      coordNotice [] "m" "M" (pyLower "Random") 1 ::
        fallbackNotice [] "m" "M" (pyLower "Random") ::
        seqRun [] (fun _ => []) [] "go" "m" "M" "teamManager" [c9ax] ++
        [finNotice [] "m" "M"] := by
  have hne : [c9ax] ≠ ([] : List EUnit) := by simp
  refine ⟨?_, ?_, ?_⟩
  · exact (strategy_sequence_alias [] (fun _ => []) [] "go" "m" "M" "teamManager"
      [c9ax] hne).1 _ "Sequence" rfl
  · exact (strategy_sequence_alias [] (fun _ => []) [] "go" "m" "M" "teamManager"
      [c9ax] hne).2.1
  · exact (strategy_sequence_alias [] (fun _ => []) [] "go" "m" "M" "teamManager"
      [c9ax] hne).2.2.2.2 "Random" (by decide)

/-! ## C5: lineage accumulation -/

@[simp] theorem noticeEvent_context (m : String) : (noticeEvent m).context = none := rfl

@[simp] theorem errorEvent_context (m : String) : (errorEvent m).context = none := rfl

@[simp] theorem textEvent_context (d : String) : (textEvent d).context = none := rfl

@[simp] theorem toolCallEvent_context (n a : String) :
    (toolCallEvent n a).context = none := rfl

/-- Every event the raw agent stream translation produces carries no
context yet. -/
theorem runAgentStream_context_none (r : RunOut) :
    ∀ e ∈ runAgentStream r, e.context = none := by
  intro e he
  unfold runAgentStream at he
  rcases List.mem_append.mp he with h | h
  · rcases List.mem_flatMap.mp h with ⟨u, _, hu⟩
    unfold updateEvents at hu
    rcases List.mem_append.mp hu with h2 | h2
    · rcases List.mem_append.mp h2 with h3 | h3
      · cases hd : u.delta with
        | none => rw [hd] at h3; simp at h3
        | some d =>
          rw [hd] at h3
          by_cases hdd : d = ""
          · simp [hdd] at h3
          · simp [hdd] at h3
            subst h3; rfl
      · cases ht : u.toolCalls with
        | none => rw [ht] at h3; simp at h3
        | some tcs =>
          rw [ht] at h3
          by_cases htt : tcs = []
          · simp [htt] at h3
          · simp [htt] at h3
            obtain ⟨tc, _, h4⟩ := h3
            subst h4; rfl
    · by_cases hb : u.delta = none ∧ u.toolCalls = none
      · rw [if_pos hb] at h2
        simp at h2
        subst h2; rfl
      · rw [if_neg hb] at h2
        simp at h2
  · cases hr : r.raises with
    | none => rw [hr] at h; simp at h
    | some m =>
      rw [hr] at h
      simp at h
      subst h; rfl

/-- Attaching context to a context-free event installs the unit id and no
lineage. -/
theorem attachContext_of_none (ex : List (String × String)) (e : Event)
    (uid ulabel : String) (h : e.context = none) :
    ∃ c : Context, (attachContext ex e uid ulabel).context = some c ∧
      c.unitId = some uid ∧ c.lineage = none := by
  refine ⟨_, rfl, ?_, ?_⟩ <;> simp [h, setDefault]

/-- Every event of `AgentUnit.run_stream` carries `unitId = ` the agent's
id and no lineage yet. -/
theorem agentUnitStream_context (ex : List (String × String)) (aid albl : String)
    (beh : AgentBeh) (msg : String) :
    ∀ e ∈ agentUnitStream ex aid albl beh msg,
      ∃ c : Context, e.context = some c ∧ c.unitId = some aid ∧ c.lineage = none := by
  intro e he
  unfold agentUnitStream at he
  rcases List.mem_cons.mp he with h | h
  · subst h
    exact attachContext_of_none ex _ aid albl rfl
  · rcases List.mem_append.mp h with h2 | h2
    · rcases List.mem_map.mp h2 with ⟨e0, he0, h3⟩
      subst h3
      exact attachContext_of_none ex e0 aid albl (runAgentStream_context_none _ e0 he0)
    · simp at h2
      subst h2
      exact attachContext_of_none ex _ aid albl rfl

/-- The context produced by `_append_parent_context`. -/
def withParent (c : Context) (pid plabel pkind : String) : Context :=
  { c with
      lineage := some (if pid ∈ c.lineage.getD [] then c.lineage.getD []
        else c.lineage.getD [] ++ [pid])
      via := some pid
      viaLabel := some plabel
      viaKind := some pkind }

/-- `_append_parent_context` on an event with a context present. -/
theorem appendParentContext_of_some (pid plabel pkind : String) (e : Event)
    (c : Context) (h : e.context = some c) :
    appendParentContext pid plabel pkind e =
      { e with context := some (withParent c pid plabel pkind) } := by
  simp [appendParentContext, withParent, h]

/-- `_append_parent_context` never touches `unitId`. -/
theorem appendParentContext_unitId (pid plabel pkind : String) (e : Event) :
    ((appendParentContext pid plabel pkind e).context.getD {}).unitId =
      (e.context.getD {}).unitId := by
  cases h : e.context with
  | none => simp [appendParentContext, h]
  | some c => simp [appendParentContext, h]

/-- The shape of a sequential one-child manager stream. -/
theorem runUnit_seq_single (ex : List (String × String)) (sched : List Nat → List Nat)
    (path : List Nat) (msg mid mlabel mkind : String) (c : EUnit) :
    runUnit ex sched path msg (.manager mid mlabel mkind "sequential" [c]) =
      attachContext ex (noticeEvent (coordMsg mlabel 1 "sequential")) mid mlabel ::
        (attachContext ex (noticeEvent (mlabel ++ " delegating to " ++ c.label)) mid mlabel ::
          (runUnit ex sched (path ++ [0]) msg c).map
            (appendParentContext mid mlabel mkind)) ++
        [finNotice ex mid mlabel] := by
  simp [runUnit, childStreams, managerStream, seqBody, finNotice]

/-- Membership in a sequential one-child manager stream, decomposed. -/
theorem mem_runUnit_seq_single {ex : List (String × String)}
    {sched : List Nat → List Nat} {path : List Nat} {msg mid mlabel mkind : String}
    {c : EUnit} {e : Event}
    (he : e ∈ runUnit ex sched path msg (.manager mid mlabel mkind "sequential" [c])) :
    e = attachContext ex (noticeEvent (coordMsg mlabel 1 "sequential")) mid mlabel ∨
    e = attachContext ex (noticeEvent (mlabel ++ " delegating to " ++ c.label)) mid mlabel ∨
    e = finNotice ex mid mlabel ∨
    ∃ e1 ∈ runUnit ex sched (path ++ [0]) msg c,
      e = appendParentContext mid mlabel mkind e1 := by
  rw [runUnit_seq_single] at he
  rcases List.mem_cons.mp he with h | h
  · exact Or.inl h
  · rcases List.mem_append.mp h with h2 | h2
    · rcases List.mem_cons.mp h2 with h3 | h3
      · exact Or.inr (Or.inl h3)
      · rcases List.mem_map.mp h3 with ⟨e1, he1, h4⟩
        exact Or.inr (Or.inr (Or.inr ⟨e1, he1, h4.symm⟩))
    · simp at h2
      exact Or.inr (Or.inr (Or.inl h2))

/-- Forwarding direction: a child event appears, annotated, in the
sequential one-child manager stream. -/
theorem mem_runUnit_seq_single_of {ex : List (String × String)}
    {sched : List Nat → List Nat} {path : List Nat} {msg mid mlabel mkind : String}
    {c : EUnit} {e1 : Event} (h : e1 ∈ runUnit ex sched (path ++ [0]) msg c) :
    appendParentContext mid mlabel mkind e1 ∈
      runUnit ex sched path msg (.manager mid mlabel mkind "sequential" [c]) := by
  rw [runUnit_seq_single]
  refine List.mem_cons.mpr (Or.inr (List.mem_append.mpr (Or.inl ?_)))
  exact List.mem_cons.mpr (Or.inr (List.mem_map.mpr ⟨e1, h, rfl⟩))

theorem runUnit_agent_eq (ex : List (String × String)) (sched : List Nat → List Nat)
    (path : List Nat) (msg aid albl : String) (beh : AgentBeh) :
    runUnit ex sched path msg (.agent aid albl beh) = agentUnitStream ex aid albl beh msg := by
  simp [runUnit]

/-- C5 (confirmed).  In the nested configuration Director → ManagerA →
AgentX (distinct ids), every event of the director-level stream whose
`unitId` is AgentX's id is a leaf event of AgentX forwarded through
ManagerA and then the Director with its `unitId` untouched, and it carries
`lineage = [managerAId, directorId]` — the ordered chain of ancestor
manager ids the event passed through (innermost first); and at least one
such event always occurs. -/
theorem lineage_accumulation (ex : List (String × String))
    (sched : List Nat → List Nat) (path : List Nat)
    (msg dId dLbl dKind aId aLbl aKind xId xLbl : String) (beh : AgentBeh)
    (hda : dId ≠ aId) (hxa : xId ≠ aId) (hxd : xId ≠ dId) :
    (∀ e ∈ runUnit ex sched path msg
        (.manager dId dLbl dKind "sequential"
          [.manager aId aLbl aKind "sequential" [.agent xId xLbl beh]]),
      (e.context.getD {}).unitId = some xId →
        (e.context.getD {}).lineage = some [aId, dId] ∧
        ∃ e0 ∈ agentUnitStream ex xId xLbl beh msg,
          e = appendParentContext dId dLbl dKind
                (appendParentContext aId aLbl aKind e0)) ∧
    (∃ e ∈ runUnit ex sched path msg
        (.manager dId dLbl dKind "sequential"
          [.manager aId aLbl aKind "sequential" [.agent xId xLbl beh]]),
      (e.context.getD {}).unitId = some xId) := by
  have hforward : ∀ e0 ∈ agentUnitStream ex xId xLbl beh msg,
      ((appendParentContext dId dLbl dKind
          (appendParentContext aId aLbl aKind e0)).context.getD {}).unitId = some xId ∧
      ((appendParentContext dId dLbl dKind
          (appendParentContext aId aLbl aKind e0)).context.getD {}).lineage =
        some [aId, dId] := by
    intro e0 he0
    obtain ⟨c, hc, hcu, hcl⟩ := agentUnitStream_context ex xId xLbl beh msg e0 he0
    rw [appendParentContext_of_some aId aLbl aKind e0 c hc]
    rw [appendParentContext_of_some dId dLbl dKind _ _ rfl]
    simp [withParent, hcl, hcu, hda]
  have hnotice : ∀ m uid ulbl : String,
      ((attachContext ex (noticeEvent m) uid ulbl).context.getD {}).unitId = some uid := by
    intro m uid ulbl
    obtain ⟨c, hc, hcu, _⟩ := attachContext_of_none ex (noticeEvent m) uid ulbl rfl
    rw [hc]
    simpa using hcu
  have hfin : ∀ uid ulbl : String,
      ((finNotice ex uid ulbl).context.getD {}).unitId = some uid := by
    intro uid ulbl
    exact hnotice _ uid ulbl
  constructor
  · intro e he hx
    rcases mem_runUnit_seq_single he with h | h | h | ⟨e1, he1, rfl⟩
    · subst h; rw [hnotice] at hx; exact absurd (Option.some.inj hx) hxd.symm
    · subst h; rw [hnotice] at hx; exact absurd (Option.some.inj hx) hxd.symm
    · subst h; rw [hfin] at hx; exact absurd (Option.some.inj hx) hxd.symm
    · rw [appendParentContext_unitId] at hx
      rcases mem_runUnit_seq_single he1 with h | h | h | ⟨e0, he0, rfl⟩
      · subst h; rw [hnotice] at hx; exact absurd (Option.some.inj hx) hxa.symm
      · subst h; rw [hnotice] at hx; exact absurd (Option.some.inj hx) hxa.symm
      · subst h; rw [hfin] at hx; exact absurd (Option.some.inj hx) hxa.symm
      · rw [runUnit_agent_eq] at he0
        exact ⟨(hforward e0 he0).2, e0, he0, rfl⟩
  · refine ⟨appendParentContext dId dLbl dKind (appendParentContext aId aLbl aKind
      (attachContext ex (noticeEvent (xLbl ++ " starting execution")) xId xLbl)), ?_, ?_⟩
    · refine mem_runUnit_seq_single_of (mem_runUnit_seq_single_of ?_)
      rw [runUnit_agent_eq]
      exact List.mem_cons_self _ _
    · exact (hforward _ (List.mem_cons_self _ _)).1

/-- Witness for C5 at concrete ids. -/
theorem lineage_accumulation_witness :
    (∀ e ∈ runUnit [] (fun _ => []) [] "go"
        (.manager "dir" "Dir" "teamDirector" "sequential"
          [.manager "mgrA" "MA" "teamManager" "sequential"
            [.agent "agX" "AX" (fun _ => { updates := [] })]]),
      (e.context.getD {}).unitId = some "agX" →
        (e.context.getD {}).lineage = some ["mgrA", "dir"] ∧
        ∃ e0 ∈ agentUnitStream [] "agX" "AX" (fun _ => { updates := [] }) "go",
          e = appendParentContext "dir" "Dir" "teamDirector"
                (appendParentContext "mgrA" "MA" "teamManager" e0)) ∧
    (∃ e ∈ runUnit [] (fun _ => []) [] "go"
        (.manager "dir" "Dir" "teamDirector" "sequential"
          [.manager "mgrA" "MA" "teamManager" "sequential"
            [.agent "agX" "AX" (fun _ => { updates := [] })]]),
      (e.context.getD {}).unitId = some "agX") :=
  lineage_accumulation [] (fun _ => []) [] "go" "dir" "Dir" "teamDirector"
    "mgrA" "MA" "teamManager" "agX" "AX" (fun _ => { updates := [] })
    (by decide) (by decide) (by decide)

/-! ## C6: agent failure containment -/

/-- The shape of a sequential two-child manager stream. -/
theorem runUnit_seq_pair (ex : List (String × String)) (sched : List Nat → List Nat)
    (path : List Nat) (msg mid mlabel mkind : String) (c1 c2 : EUnit) :
    runUnit ex sched path msg (.manager mid mlabel mkind "sequential" [c1, c2]) =
      attachContext ex (noticeEvent (coordMsg mlabel 2 "sequential")) mid mlabel ::
        (attachContext ex (noticeEvent (mlabel ++ " delegating to " ++ c1.label)) mid mlabel ::
          (runUnit ex sched (path ++ [0]) msg c1).map (appendParentContext mid mlabel mkind) ++
          (attachContext ex (noticeEvent (mlabel ++ " delegating to " ++ c2.label)) mid mlabel ::
            (runUnit ex sched (path ++ [1]) msg c2).map
              (appendParentContext mid mlabel mkind))) ++
        [finNotice ex mid mlabel] := by
  simp [runUnit, childStreams, managerStream, seqBody, finNotice]

/-- C6 (confirmed).  When an agent's underlying capability stream raises,
the exception is caught at the `AgentUnit` boundary: the unit's stream is
an ordinary event list that converts the exception into a single `error`
event and still closes with the agent's `finished` notice, and — run under
a sequential manager next to a sibling — the forwarded error event appears
in the manager stream together with every event of the sibling's stream
(the failure aborts neither the sibling nor the surrounding stream). -/
theorem agent_failure_contained (ex : List (String × String))
    (sched : List Nat → List Nat) (path : List Nat)
    (msg xId xLbl em mid mlabel mkind : String) (beh : AgentBeh) (sib : EUnit)
    (hx : (beh msg).raises = some em) :
    agentUnitStream ex xId xLbl beh msg =
      attachContext ex (noticeEvent (xLbl ++ " starting execution")) xId xLbl ::
        (((beh msg).updates.flatMap updateEvents).map
          (fun e => attachContext ex e xId xLbl) ++
         [attachContext ex (errorEvent em) xId xLbl]) ++
        [attachContext ex (noticeEvent (xLbl ++ " finished")) xId xLbl] ∧
    appendParentContext mid mlabel mkind (attachContext ex (errorEvent em) xId xLbl) ∈
      runUnit ex sched path msg
        (.manager mid mlabel mkind "sequential" [.agent xId xLbl beh, sib]) ∧
    (∀ e ∈ runUnit ex sched (path ++ [1]) msg sib,
      appendParentContext mid mlabel mkind e ∈
        runUnit ex sched path msg
          (.manager mid mlabel mkind "sequential" [.agent xId xLbl beh, sib])) := by
  have hagent : agentUnitStream ex xId xLbl beh msg =
      attachContext ex (noticeEvent (xLbl ++ " starting execution")) xId xLbl ::
        (((beh msg).updates.flatMap updateEvents).map
          (fun e => attachContext ex e xId xLbl) ++
         [attachContext ex (errorEvent em) xId xLbl]) ++
        [attachContext ex (noticeEvent (xLbl ++ " finished")) xId xLbl] := by
    unfold agentUnitStream runAgentStream
    rw [hx]
    simp
  refine ⟨hagent, ?_, ?_⟩
  · rw [runUnit_seq_pair]
    refine List.mem_cons.mpr (Or.inr (List.mem_append.mpr (Or.inl
      (List.mem_cons.mpr (Or.inr (List.mem_append.mpr (Or.inl ?_)))))))
    refine List.mem_map.mpr ⟨attachContext ex (errorEvent em) xId xLbl, ?_, rfl⟩
    rw [runUnit_agent_eq, hagent]
    refine List.mem_cons.mpr (Or.inr (List.mem_append.mpr (Or.inl ?_)))
    exact List.mem_append.mpr (Or.inr (List.mem_singleton.mpr rfl))
  · intro e he
    rw [runUnit_seq_pair]
    refine List.mem_cons.mpr (Or.inr (List.mem_append.mpr (Or.inl
      (List.mem_cons.mpr (Or.inr (List.mem_append.mpr (Or.inr
        (List.mem_cons.mpr (Or.inr ?_)))))))))
    exact List.mem_map.mpr ⟨e, he, rfl⟩

def c6Beh : AgentBeh := fun _ => { updates := [{ delta := some "partial" }], raises := some "boom" }

def c6Sib : EUnit := .agent "sy" "SY" (fun _ => { updates := [{ delta := some "ok" }] })

/-- Witness for C6: a concrete failing agent next to a healthy sibling. -/
theorem agent_failure_contained_witness :
    agentUnitStream [] "ax" "AX" c6Beh "go" =
      attachContext [] (noticeEvent "AX starting execution") "ax" "AX" ::
        (((c6Beh "go").updates.flatMap updateEvents).map
          (fun e => attachContext [] e "ax" "AX") ++
         [attachContext [] (errorEvent "boom") "ax" "AX"]) ++
        [attachContext [] (noticeEvent "AX finished") "ax" "AX"] ∧
    appendParentContext "m" "M" "teamManager" (attachContext [] (errorEvent "boom") "ax" "AX") ∈
      runUnit [] (fun _ => []) [] "go"
        (.manager "m" "M" "teamManager" "sequential" [.agent "ax" "AX" c6Beh, c6Sib]) ∧
    (∀ e ∈ runUnit [] (fun _ => []) ([] ++ [1]) "go" c6Sib,
      appendParentContext "m" "M" "teamManager" e ∈
        runUnit [] (fun _ => []) [] "go"
          (.manager "m" "M" "teamManager" "sequential" [.agent "ax" "AX" c6Beh, c6Sib])) := by
  have h := agent_failure_contained [] (fun _ => []) [] "go" "ax" "AX" "boom"
    "m" "M" "teamManager" c6Beh c6Sib rfl
  exact ⟨by simpa using h.1, h.2.1, h.2.2⟩

/-! ## C8: `_copy_event` and aliasing, over an explicit heap of dicts -/

/-- A Python value: a non-dict primitive, or a reference to a dict. -/
inductive PVal : Type where
  | prim (s : String)
  | ref (r : Nat)
deriving DecidableEq

/-- A Python dict: ordered key-value pairs. -/
abbrev PDict := List (String × PVal)

/-- Reference lookup. -/
def hlookup (l : List (Nat × PDict)) (r : Nat) : Option PDict :=
  match l with
  | [] => none
  | p :: rest => if p.1 = r then some p.2 else hlookup rest r

/-- A heap of dicts with an allocation counter. -/
structure Heap where
  mem : List (Nat × PDict)
  next : Nat
deriving DecidableEq

def Heap.get (h : Heap) (r : Nat) : Option PDict := hlookup h.mem r

def Heap.alloc (h : Heap) (d : PDict) : Heap × Nat :=
  ({ mem := h.mem ++ [(h.next, d)], next := h.next + 1 }, h.next)

/-- All live references are below the allocation counter. -/
def Heap.WF (h : Heap) : Prop := ∀ p ∈ h.mem, p.1 < h.next

/-- `cloned[key] = dict(cloned[key])` when `key` maps to a dict: allocate a
fresh dict with the same immediate entries. -/
def copyKey (h : Heap) (d : PDict) (k : String) : Heap × PDict :=
  match dlookup d k with
  | some (.ref r) =>
    match h.get r with
    | some sub =>
      let ar := h.alloc sub
      (ar.1, dictInsert d k (.ref ar.2))
    | none => (h, d)
  | _ => (h, d)

/-- `TeamManager._copy_event` over the heap: `dict(event)`, then one-level
copies of the immediate `data` and `context` dicts. -/
def copyEvent (h : Heap) (e : Nat) : Heap × Nat :=
  let d := (h.get e).getD []
  let s1 := copyKey h d "data"
  let s2 := copyKey s1.1 s1.2 "context"
  s2.1.alloc s2.2

theorem dlookup_dictInsert_ne {α : Type} (l : List (String × α)) (k k2 : String)
    (v : α) (h : k ≠ k2) : dlookup (dictInsert l k v) k2 = dlookup l k2 := by
  induction l with
  | nil => simp [dictInsert, dlookup, h]
  | cons p rest ih =>
    by_cases hp : p.1 = k
    · simp [dictInsert, dlookup, hp, h]
    · simp only [dictInsert, hp, if_false, dlookup]
      by_cases hp2 : p.1 = k2 <;> simp [hp2, ih]

theorem hlookup_append_of_some {l l2 : List (Nat × PDict)} {r : Nat} {d : PDict}
    (h : hlookup l r = some d) : hlookup (l ++ l2) r = some d := by
  induction l with
  | nil => simp [hlookup] at h
  | cons p rest ih =>
    by_cases hp : p.1 = r
    · simpa [hlookup, hp] using h
    · simp [hlookup, hp] at h ⊢
      exact ih h

theorem hlookup_none_of_lt (l : List (Nat × PDict)) (n : Nat)
    (h : ∀ p ∈ l, p.1 < n) : hlookup l n = none := by
  induction l with
  | nil => rfl
  | cons p rest ih =>
    have h1 : p.1 < n := h p (List.mem_cons_self _ _)
    have h2 : p.1 ≠ n := Nat.ne_of_lt h1
    simp only [hlookup, h2, if_false]
    exact ih (fun q hq => h q (List.mem_cons_of_mem _ hq))

theorem hlookup_append_of_none {l : List (Nat × PDict)} (l2 : List (Nat × PDict))
    {r : Nat} (h : hlookup l r = none) : hlookup (l ++ l2) r = hlookup l2 r := by
  induction l with
  | nil => rfl
  | cons p rest ih =>
    by_cases hp : p.1 = r
    · simp [hlookup, hp] at h
    · simp only [hlookup, hp, if_false] at h
      simp only [List.cons_append, hlookup, hp, if_false]
      exact ih h

theorem Heap.get_alloc_self (h : Heap) (d : PDict) (hwf : h.WF) :
    ((h.alloc d).1).get (h.alloc d).2 = some d := by
  unfold Heap.alloc Heap.get
  simp only
  rw [hlookup_append_of_none _ (hlookup_none_of_lt _ _ hwf)]
  simp [hlookup]

theorem Heap.get_alloc_of_some {h : Heap} {r : Nat} {x : PDict} (d : PDict)
    (hr : h.get r = some x) : ((h.alloc d).1).get r = some x :=
  hlookup_append_of_some hr

theorem Heap.WF_alloc {h : Heap} (d : PDict) (hwf : h.WF) : ((h.alloc d).1).WF := by
  intro p hp
  unfold Heap.alloc at hp
  simp only at hp
  rcases List.mem_append.mp hp with h1 | h1
  · exact Nat.lt_succ_of_lt (hwf p h1)
  · simp at h1
    subst h1
    exact Nat.lt_succ_self _

theorem Heap.get_none_of_wf {h : Heap} {n : Nat} (hwf : h.WF) (hn : h.next ≤ n) :
    h.get n = none :=
  hlookup_none_of_lt _ _ (fun p hp => Nat.lt_of_lt_of_le (hwf p hp) hn)

/-- C8 (corrected, amended part).  `_copy_event` is a one-level copy: for a
well-formed heap and an event dict whose `data` field is a dict, the clone
is a reference that did not exist in the original heap, its `data` field is
likewise a freshly allocated reference (so neither the event dict nor its
immediate `data`/`context` dicts are ever shared between the original and
the clone), but the fresh `data` dict holds exactly the original's
immediate entries — values nested deeper inside `data` are shared, not
copied (the counterexample below exhibits such an alias, refuting the
claim's "at any nesting depth"). -/
theorem copyEvent_shallow (h : Heap) (e : Nat) (d dd : PDict) (rd : Nat)
    (hwf : h.WF) (he : h.get e = some d)
    (hd : dlookup d "data" = some (.ref rd)) (hdd : h.get rd = some dd) :
    dlookup (((copyEvent h e).1.get (copyEvent h e).2).getD []) "data" =
      some (.ref h.next) ∧
    h.get h.next = none ∧
    h.next ≠ rd ∧
    (copyEvent h e).1.get h.next = some dd ∧
    h.get (copyEvent h e).2 = none := by
  have hrd : rd < h.next := by
    by_contra hc
    rw [Heap.get_none_of_wf hwf (Nat.le_of_not_lt hc)] at hdd
    exact Option.noConfusion hdd
  have hfresh : h.get h.next = none := Heap.get_none_of_wf hwf (Nat.le_refl _)
  unfold copyEvent
  rw [he]
  simp only [Option.getD_some]
  rw [show copyKey h d "data" = ((h.alloc dd).1, dictInsert d "data" (.ref h.next))
    from by simp [copyKey, hd, hdd, Heap.alloc]]
  have hwf1 : ((h.alloc dd).1).WF := Heap.WF_alloc dd hwf
  have hnext1 : ((h.alloc dd).1).next = h.next + 1 := rfl
  have hgetnext : ((h.alloc dd).1).get h.next = some dd := Heap.get_alloc_self h dd hwf
  cases hc : dlookup (dictInsert d "data" (PVal.ref h.next)) "context" with
  | none =>
    rw [show copyKey (h.alloc dd).1 (dictInsert d "data" (PVal.ref h.next)) "context" =
        ((h.alloc dd).1, dictInsert d "data" (PVal.ref h.next)) from by simp [copyKey, hc]]
    simp only
    refine ⟨?_, hfresh, Nat.ne_of_gt hrd, ?_, ?_⟩
    · rw [Heap.get_alloc_self _ _ hwf1]
      simp [dlookup_dictInsert_self]
    · exact Heap.get_alloc_of_some _ hgetnext
    · exact Heap.get_none_of_wf hwf (Nat.le_succ _)
  | some v =>
    cases v with
    | prim s =>
      rw [show copyKey (h.alloc dd).1 (dictInsert d "data" (PVal.ref h.next)) "context" =
          ((h.alloc dd).1, dictInsert d "data" (PVal.ref h.next)) from by simp [copyKey, hc]]
      simp only
      refine ⟨?_, hfresh, Nat.ne_of_gt hrd, ?_, ?_⟩
      · rw [Heap.get_alloc_self _ _ hwf1]
        simp [dlookup_dictInsert_self]
      · exact Heap.get_alloc_of_some _ hgetnext
      · exact Heap.get_none_of_wf hwf (Nat.le_succ _)
    | ref rc =>
      cases hrc : ((h.alloc dd).1).get rc with
      | none =>
        rw [show copyKey (h.alloc dd).1 (dictInsert d "data" (PVal.ref h.next)) "context" =
            ((h.alloc dd).1, dictInsert d "data" (PVal.ref h.next)) from by
          simp [copyKey, hc, hrc]]
        simp only
        refine ⟨?_, hfresh, Nat.ne_of_gt hrd, ?_, ?_⟩
        · rw [Heap.get_alloc_self _ _ hwf1]
          simp [dlookup_dictInsert_self]
        · exact Heap.get_alloc_of_some _ hgetnext
        · exact Heap.get_none_of_wf hwf (Nat.le_succ _)
      | some sub =>
        rw [show copyKey (h.alloc dd).1 (dictInsert d "data" (PVal.ref h.next)) "context" =
            (((h.alloc dd).1.alloc sub).1,
              dictInsert (dictInsert d "data" (PVal.ref h.next)) "context"
                (.ref ((h.alloc dd).1.alloc sub).2)) from by
          simp [copyKey, hc, hrc]]
        simp only
        have hwf2 : (((h.alloc dd).1.alloc sub).1).WF := Heap.WF_alloc sub hwf1
        refine ⟨?_, hfresh, Nat.ne_of_gt hrd, ?_, ?_⟩
        · rw [Heap.get_alloc_self _ _ hwf2]
          simp only [Option.getD_some]
          rw [dlookup_dictInsert_ne _ _ _ _ (by decide)]
          exact dlookup_dictInsert_self _ _ _
        · exact Heap.get_alloc_of_some _ (Heap.get_alloc_of_some _ hgetnext)
        · exact Heap.get_none_of_wf hwf (Nat.le_add_right h.next 2)

/-- A concrete heap: event `0` with `data = ref 1`, whose dict holds a
nested dict `inner = ref 2`. -/
def heapC8 : Heap :=
  { mem :=
      [ (0, [("type", .prim "text"), ("data", .ref 1)])
      , (1, [("inner", .ref 2)])
      , (2, [("x", .prim "1")]) ]
    next := 3 }

/-- Counterexample to C8 as stated: after `_copy_event`, the clone's fresh
`data` dict (reference `3`) holds the very same nested reference `2` as the
original's `data` dict (reference `1`) — the original and the clone alias a
dict nested inside `data`, so the copy is not deep "at any nesting depth". -/
theorem copyEvent_alias_counterexample :
    (copyEvent heapC8 0).2 = 4 ∧
    (copyEvent heapC8 0).1.get 4 = some [("type", .prim "text"), ("data", .ref 3)] ∧
    (copyEvent heapC8 0).1.get 3 = some [("inner", .ref 2)] ∧
    heapC8.get 1 = some [("inner", .ref 2)] := by
  refine ⟨rfl, rfl, rfl, rfl⟩

/-- Witness for C8 (amended) at the same concrete heap. -/
theorem copyEvent_shallow_witness :
    dlookup (((copyEvent heapC8 0).1.get (copyEvent heapC8 0).2).getD []) "data" =
      some (.ref heapC8.next) ∧
    heapC8.get heapC8.next = none ∧
    heapC8.next ≠ 1 ∧
    (copyEvent heapC8 0).1.get heapC8.next = some [("inner", .ref 2)] ∧
    heapC8.get (copyEvent heapC8 0).2 = none :=
  copyEvent_shallow heapC8 0 [("type", .prim "text"), ("data", .ref 1)]
    [("inner", .ref 2)] 1 (by unfold Heap.WF; decide) rfl rfl rfl

/-! ## C1: cycle rejection in `build()` -/

theorem dlookup_dictInsert {α : Type} (l : List (String × α)) (k k2 : String) (v : α) :
    dlookup (dictInsert l k v) k2 = if k = k2 then some v else dlookup l k2 := by
  by_cases h : k = k2
  · subst h
    simp [dlookup_dictInsert_self]
  · simp [h, dlookup_dictInsert_ne _ _ _ _ h]

theorem keysOf_dictInsert {α : Type} (l : List (String × α)) (k : String) (v : α) :
    keysOf (dictInsert l k v) = if k ∈ keysOf l then keysOf l else keysOf l ++ [k] := by
  induction l with
  | nil => simp [dictInsert, keysOf]
  | cons p rest ih =>
    by_cases h : p.1 = k
    · simp [dictInsert, keysOf, h]
    · simp only [dictInsert, h, if_false, keysOf, List.map_cons] at ih ⊢
      rw [ih]
      by_cases h2 : k ∈ List.map Prod.fst rest
      · simp [h2, Ne.symm h]
      · simp [h2, Ne.symm h]

theorem dlookup_mem_keys {α : Type} {l : List (String × α)} {k : String} {v : α}
    (h : dlookup l k = some v) : k ∈ keysOf l := by
  induction l with
  | nil => simp [dlookup] at h
  | cons p rest ih =>
    by_cases hp : p.1 = k
    · simp [keysOf, hp]
    · simp only [dlookup, hp, if_false] at h
      simp [keysOf] at ih ⊢
      exact Or.inr (ih h)

theorem dlookup_none_of_not_mem {α : Type} {l : List (String × α)} {k : String}
    (h : k ∉ keysOf l) : dlookup l k = none := by
  cases hd : dlookup l k with
  | none => rfl
  | some v => exact absurd (dlookup_mem_keys hd) h

/-- A dict built by folding `dictInsert` has nodup keys drawn from the
insertions and the base. -/
theorem keysOf_foldl_nodup (l : List Node) (acc : List (String × Node))
    (hacc : (keysOf acc).Nodup) :
    (keysOf (l.foldl (fun a n => dictInsert a n.id n) acc)).Nodup := by
  induction l generalizing acc with
  | nil => simpa using hacc
  | cons n rest ih =>
    simp only [List.foldl_cons]
    refine ih _ ?_
    rw [keysOf_dictInsert]
    by_cases h : n.id ∈ keysOf acc
    · simpa [h] using hacc
    · simp only [h, if_false]
      refine List.Nodup.append hacc (List.nodup_singleton _) ?_
      intro x hx hx2
      simp only [List.mem_singleton] at hx2
      subst hx2
      exact h hx

theorem nodesDict_keys_nodup (tm : TM) : (keysOf (nodesDict tm)).Nodup :=
  keysOf_foldl_nodup _ _ (by simp [keysOf])

theorem dlookup_dictInsert_cases {α : Type} {l : List (String × α)} {k k2 : String}
    {v w : α} (h : dlookup (dictInsert l k v) k2 = some w) :
    (k = k2 ∧ w = v) ∨ dlookup l k2 = some w := by
  rw [dlookup_dictInsert] at h
  by_cases hk : k = k2
  · simp only [hk, if_true, Option.some.injEq] at h
    exact Or.inl ⟨hk, h.symm⟩
  · simp only [hk, if_false] at h
    exact Or.inr h

/-- Fold-invariant for node dicts built by `dictInsert`. -/
theorem dlookup_foldl_nodes {P : String → Node → Prop} :
    ∀ (l : List Node) (acc : List (String × Node)),
      (∀ k v, dlookup acc k = some v → P k v) →
      (∀ m ∈ l, P m.id m) →
      ∀ k v, dlookup (l.foldl (fun a n => dictInsert a n.id n) acc) k = some v → P k v := by
  intro l
  induction l with
  | nil => intro acc hacc _ k v h; exact hacc k v h
  | cons m rest ih =>
    intro acc hacc hl k v h
    simp only [List.foldl_cons] at h
    refine ih (dictInsert acc m.id m) ?_ (fun x hx => hl x (List.mem_cons_of_mem _ hx)) k v h
    intro k2 v2 h2
    rcases dlookup_dictInsert_cases h2 with ⟨h3, h4⟩ | h3
    · rw [h4]
      exact h3 ▸ hl m (List.mem_cons_self _ _)
    · exact hacc k2 v2 h3

/-- Values of the nodes dict come from the graph node list, keyed by id. -/
theorem nodesDict_lookup {tm : TM} {i : String} {n : Node}
    (h : dlookup (nodesDict tm) i = some n) : n ∈ tm.graphNodes ∧ n.id = i := by
  refine dlookup_foldl_nodes (P := fun k v => v ∈ tm.graphNodes ∧ v.id = k)
    tm.graphNodes [] ?_ ?_ i n h
  · intro k v hv
    simp [dlookup] at hv
  · intro m hm
    exact ⟨hm, rfl⟩

/-- A node of kind `teamManager` in the nodes dict has its id among
`manager_node_ids`. -/
theorem mem_managerNodeIds_of_lookup {tm : TM} {i : String} {n : Node}
    (h : dlookup (nodesDict tm) i = some n) (hk : n.kind = "teamManager") :
    i ∈ managerNodeIds tm := by
  obtain ⟨hmem, hid⟩ := nodesDict_lookup h
  unfold managerNodeIds
  exact List.mem_filterMap.mpr ⟨n, hmem, by simp [hk, hid]⟩

/-- A hit in `manager_nodes` is a hit in the nodes dict. -/
theorem managerNodesD_sub {tm : TM} {m : String} {n : Node}
    (h : dlookup (managerNodesD tm) m = some n) : dlookup (nodesDict tm) m = some n := by
  unfold managerNodesD at h
  suffices haux : ∀ (l : List String) (acc : List (String × Node)),
      (∀ k v, dlookup acc k = some v → dlookup (nodesDict tm) k = some v) →
      ∀ k v, dlookup (l.foldl (fun a i =>
        match dlookup (nodesDict tm) i with
        | some n2 => dictInsert a i n2
        | none => a) acc) k = some v → dlookup (nodesDict tm) k = some v by
    exact haux (managerNodeIds tm) [] (by intro k v hv; simp [dlookup] at hv) m n h
  intro l
  induction l with
  | nil => intro acc hacc k v hv; exact hacc k v hv
  | cons i rest ih =>
    intro acc hacc k v hv
    simp only [List.foldl_cons] at hv
    cases hi : dlookup (nodesDict tm) i with
    | none =>
      rw [hi] at hv
      exact ih acc hacc k v hv
    | some n2 =>
      rw [hi] at hv
      refine ih _ ?_ k v hv
      intro k2 v2 h2
      rcases dlookup_dictInsert_cases h2 with ⟨h3, h4⟩ | h3
      · subst h3 h4
        exact hi
      · exact hacc k2 v2 h3

/-- The same for `agent_nodes`. -/
theorem agentNodesD_sub {tm : TM} {m : String} {n : Node}
    (h : dlookup (agentNodesD tm) m = some n) : dlookup (nodesDict tm) m = some n := by
  unfold agentNodesD at h
  suffices haux : ∀ (l : List String) (acc : List (String × Node)),
      (∀ k v, dlookup acc k = some v → dlookup (nodesDict tm) k = some v) →
      ∀ k v, dlookup (l.foldl (fun a i =>
        match dlookup (nodesDict tm) i with
        | some n2 => dictInsert a i n2
        | none => a) acc) k = some v → dlookup (nodesDict tm) k = some v by
    exact haux (agentNodeIds tm) [] (by intro k v hv; simp [dlookup] at hv) m n h
  intro l
  induction l with
  | nil => intro acc hacc k v hv; exact hacc k v hv
  | cons i rest ih =>
    intro acc hacc k v hv
    simp only [List.foldl_cons] at hv
    cases hi : dlookup (nodesDict tm) i with
    | none =>
      rw [hi] at hv
      exact ih acc hacc k v hv
    | some n2 =>
      rw [hi] at hv
      refine ih _ ?_ k v hv
      intro k2 v2 h2
      rcases dlookup_dictInsert_cases h2 with ⟨h3, h4⟩ | h3
      · subst h3 h4
        exact hi
      · exact hacc k2 v2 h3

/-- A resolved child has a node in the dict (of an allowed kind). -/
theorem resolveChildren_node {nodes : List (String × Node)} {edges : List Edge}
    {a : String} {allowed : List String} {b : String}
    (h : b ∈ resolveChildren nodes edges a allowed) :
    ∃ n, dlookup nodes b = some n ∧ (allowed = [] ∨ n.kind ∈ allowed) := by
  unfold resolveChildren at h
  rcases List.mem_filterMap.mp h with ⟨e, _, he⟩
  split at he
  · split at he
    · simp at he
    · split at he
      · simp at he
      · split at he
        · simp at he
        · split at he
          · rename_i t ht0 tn hn ha
            simp only [Option.some.injEq] at he
            subst he
            exact ⟨tn, hn, ha⟩
          · simp at he
  · simp at he

/-- A manager→manager child edge exactly as `_ensure_manager_unit`
follows it: `b` is among `a`'s resolved children and `b`'s node in the
nodes dict has kind `teamManager`. -/
def mgrEdge (tm : TM) (a b : String) : Prop :=
  b ∈ resolveChildren (nodesDict tm) tm.edges a ["agent", "teamManager"] ∧
  (dlookup (nodesDict tm) b).map Node.kind = some "teamManager"

/-- A cycle among team-manager nodes: a nonempty id list `c :: cs` with a
manager child edge from each element to the next and from the last back to
the head. -/
def IsMgrCycle (tm : TM) : List String → Prop
  | [] => False
  | c :: cs => List.Chain (mgrEdge tm) c (cs ++ [c])

/-- Every element of a chain's tail is the target of a chain edge. -/
theorem chain_targets {α : Type} {R : α → α → Prop} :
    ∀ {a : α} {l : List α}, List.Chain R a l → ∀ x ∈ l, ∃ y, R y x := by
  intro a l h
  induction h with
  | nil => intro x hx; simp at hx
  | @cons a b l hab _ ih =>
    intro x hx
    rcases List.mem_cons.mp hx with h1 | h1
    · exact ⟨a, h1 ▸ hab⟩
    · exact ih x h1

/-- Every element of a chain but the last is the source of a chain edge
into the tail. -/
theorem chain_sources {α : Type} {R : α → α → Prop} :
    ∀ {a : α} {l : List α}, List.Chain R a l →
      ∀ x ∈ (a :: l).dropLast, ∃ y ∈ l, R x y := by
  intro a l h
  induction h with
  | nil => intro x hx; simp at hx
  | @cons a b l hab hc ih =>
    intro x hx
    cases l with
    | nil =>
      simp at hx
      subst hx
      exact ⟨b, List.mem_cons_self _ _, hab⟩
    | cons c l2 =>
      rw [List.dropLast_cons₂] at hx
      rcases List.mem_cons.mp hx with h1 | h1
      · exact ⟨b, List.mem_cons_self _ _, h1 ▸ hab⟩
      · obtain ⟨y, hy, hr⟩ := ih x h1
        exact ⟨y, List.mem_cons_of_mem _ hy, hr⟩

/-- Every member of a manager cycle has a `teamManager` node. -/
theorem cyc_member_node {tm : TM} {cyc : List String} (hcyc : IsMgrCycle tm cyc) :
    ∀ x ∈ cyc, (dlookup (nodesDict tm) x).map Node.kind = some "teamManager" := by
  cases cyc with
  | nil => exact absurd hcyc (by simp [IsMgrCycle])
  | cons c cs =>
    intro x hx
    unfold IsMgrCycle at hcyc
    have hx2 : x ∈ cs ++ [c] := by
      rcases List.mem_cons.mp hx with h1 | h1
      · exact List.mem_append.mpr (Or.inr (by simp [h1]))
      · exact List.mem_append.mpr (Or.inl h1)
    obtain ⟨y, hy⟩ := chain_targets hcyc x hx2
    exact hy.2

/-- Every member of a manager cycle has a manager child edge to another
member. -/
theorem cyc_member_succ {tm : TM} {cyc : List String} (hcyc : IsMgrCycle tm cyc) :
    ∀ x ∈ cyc, ∃ y ∈ cyc, mgrEdge tm x y := by
  cases cyc with
  | nil => exact absurd hcyc (by simp [IsMgrCycle])
  | cons c cs =>
    intro x hx
    unfold IsMgrCycle at hcyc
    have hx2 : x ∈ (c :: (cs ++ [c])).dropLast := by
      rw [show c :: (cs ++ [c]) = (c :: cs) ++ [c] from by simp]
      rw [List.dropLast_concat]
      exact hx
    obtain ⟨y, hy, hr⟩ := chain_sources hcyc x hx2
    refine ⟨y, ?_, hr⟩
    rcases List.mem_append.mp hy with h1 | h1
    · exact List.mem_cons_of_mem _ h1
    · simp at h1
      exact h1 ▸ List.mem_cons_self _ _

/-- The invariant carried through the manager-building phase: the nodes
dict is untouched, and no member of the given cycle has a completed
manager unit. -/
def PhiCyc (tm : TM) (cyc : List String) (st : BState) : Prop :=
  st.nodes = nodesDict tm ∧ ∀ x ∈ cyc, dlookup st.managerUnits x = none

theorem buildAgentUnit_fields (env : Env) (tm : TM) (st : BState) (a : String) :
    ((buildAgentUnit env tm st a).1).nodes = st.nodes ∧
    ((buildAgentUnit env tm st a).1).managerUnits = st.managerUnits := by
  unfold buildAgentUnit
  split
  · exact ⟨rfl, rfl⟩
  · split
    · exact ⟨rfl, rfl⟩
    · dsimp only
      constructor
      · split <;> rfl
      · split <;> rfl

theorem buildAgentUnit_phi {tm : TM} {cyc : List String} (env : Env) (st : BState)
    (a : String) (h : PhiCyc tm cyc st) : PhiCyc tm cyc ((buildAgentUnit env tm st a).1) := by
  obtain ⟨h1, h2⟩ := buildAgentUnit_fields env tm st a
  refine ⟨h1.trans h.1, ?_⟩
  rw [h2]
  exact h.2

/-- The combined induction statement for `_ensure_manager_unit` at a given
fuel: it preserves the invariant, never exhausts the fuel, every cycle
error it raises names a genuine manager cycle, and on a cycle member it
does raise a cycle error. -/
def EnsureGood (env : Env) (tm : TM) (cyc : List String) (f : Nat) : Prop :=
  ∀ st m stack,
    PhiCyc tm cyc st →
    stack.Nodup →
    (∀ x ∈ stack, x ∈ keysOf (nodesDict tm)) →
    List.Chain' (mgrEdge tm) (stack ++ [m]) →
    (nodesDict tm).length + 1 ≤ f + stack.length →
    (∀ st2 u, ensureManagerUnit env tm f st m stack = .ok (st2, u) → PhiCyc tm cyc st2) ∧
    ensureManagerUnit env tm f st m stack ≠ .error .fuel ∧
    (∀ path, ensureManagerUnit env tm f st m stack = .error (.cycle path) →
      ∃ c2, IsMgrCycle tm c2 ∧ ∀ x ∈ c2, x ∈ path) ∧
    (m ∈ cyc → ∃ path, ensureManagerUnit env tm f st m stack = .error (.cycle path))

theorem ensureGood_zero (env : Env) (tm : TM) (cyc : List String) :
    EnsureGood env tm cyc 0 := by
  intro st m stack _ hnd hkeys _ hfuel
  exfalso
  have hsub : stack ⊆ keysOf (nodesDict tm) := fun x hx => hkeys x hx
  have hlen : stack.length ≤ (keysOf (nodesDict tm)).length :=
    (hnd.subperm hsub).length_le
  have hkl : (keysOf (nodesDict tm)).length = (nodesDict tm).length := by
    simp [keysOf]
  omega

theorem ensureChildren_nil (env : Env) (tm : TM)
    (ens : BState → String → Except BuildErr (BState × Option EUnit)) (st : BState) :
    ensureChildren env tm ens st [] = .ok (st, []) := rfl

theorem ensureChildren_cons_agent (env : Env) (tm : TM)
    (ens : BState → String → Except BuildErr (BState × Option EUnit)) (st : BState)
    (c : String) (cs : List String) (cn : Node)
    (h1 : dlookup st.nodes c = some cn) (h2 : cn.kind = "agent") :
    ensureChildren env tm ens st (c :: cs) =
      match ensureChildren env tm ens ((buildAgentUnit env tm st c).1) cs with
      | .error e => .error e
      | .ok (st2, us) => .ok (st2,
          match (buildAgentUnit env tm st c).2 with
          | some x => x :: us
          | none => us) := by
  simp only [ensureChildren, h1]
  rw [if_pos h2]

theorem ensureChildren_cons_mgr (env : Env) (tm : TM)
    (ens : BState → String → Except BuildErr (BState × Option EUnit)) (st : BState)
    (c : String) (cs : List String) (cn : Node)
    (h1 : dlookup st.nodes c = some cn) (h2 : cn.kind = "teamManager") :
    ensureChildren env tm ens st (c :: cs) =
      match ens st c with
      | .error e => .error e
      | .ok (st1, u) =>
        match ensureChildren env tm ens st1 cs with
        | .error e => .error e
        | .ok (st2, us) => .ok (st2,
            match u with
            | some x => x :: us
            | none => us) := by
  have h3 : ¬ cn.kind = "agent" := by rw [h2]; decide
  simp only [ensureChildren, h1]
  rw [if_neg h3, if_pos h2]
theorem ensureGood_succ (env : Env) (tm : TM) (cyc : List String)
    (hcyc : IsMgrCycle tm cyc) (f : Nat) (ih : EnsureGood env tm cyc f) :
    EnsureGood env tm cyc (f + 1) := by
  intro st m stack hphi hnd hkeys hchain hfuel
  cases hmu : dlookup st.managerUnits m with
  | some u =>
    have heq : ensureManagerUnit env tm (f + 1) st m stack = .ok (st, some u) := by
      simp [ensureManagerUnit, hmu]
    refine ⟨?_, ?_, ?_, ?_⟩
    · intro st2 u2 h2
      rw [heq] at h2
      simp only [Except.ok.injEq, Prod.mk.injEq] at h2
      rw [← h2.1]
      exact hphi
    · rw [heq]; simp
    · intro path hp
      rw [heq] at hp
      exact absurd hp (by simp)
    · intro hmc
      exact absurd hmu (by rw [hphi.2 m hmc]; simp)
  | none =>
    cases hnode : (dlookup (managerNodesD tm) m).orElse (fun _ => dlookup st.nodes m) with
    | none =>
      have heq : ensureManagerUnit env tm (f + 1) st m stack = .ok (st, none) := by
        simp [ensureManagerUnit, hmu, hnode]
      refine ⟨?_, ?_, ?_, ?_⟩
      · intro st2 u2 h2
        rw [heq] at h2
        simp only [Except.ok.injEq, Prod.mk.injEq] at h2
        rw [← h2.1]
        exact hphi
      · rw [heq]; simp
      · intro path hp
        rw [heq] at hp
        exact absurd hp (by simp)
      · intro hmc
        exfalso
        have hk := cyc_member_node hcyc m hmc
        cases hn0 : dlookup (nodesDict tm) m with
        | none => rw [hn0] at hk; simp at hk
        | some n0 =>
          have hne : (dlookup (managerNodesD tm) m).orElse
              (fun _ => dlookup st.nodes m) ≠ none := by
            cases hmn : dlookup (managerNodesD tm) m with
            | some x => simp [Option.orElse]
            | none => simp [Option.orElse, hphi.1, hn0]
          exact hne hnode
    | some node =>
      by_cases hms : m ∈ stack
      · have heq : ensureManagerUnit env tm (f + 1) st m stack =
            .error (.cycle (stack ++ [m])) := by
          simp only [ensureManagerUnit, hmu, hnode]
          rw [if_pos hms]
        have hgood : ∃ c2, IsMgrCycle tm c2 ∧ ∀ x ∈ c2, x ∈ stack ++ [m] := by
          obtain ⟨u2, v, huv⟩ := List.append_of_mem hms
          subst huv
          have hch2 : List.Chain' (mgrEdge tm) (m :: (v ++ [m])) := by
            have hc3 := hchain
            rw [show (u2 ++ m :: v) ++ [m] = u2 ++ (m :: (v ++ [m])) from by simp] at hc3
            exact hc3.right_of_append
          refine ⟨m :: v, ?_, ?_⟩
          · exact hch2
          · intro x hx
            rcases List.mem_cons.mp hx with h1 | h1
            · subst h1
              exact List.mem_append.mpr (Or.inr (by simp))
            · exact List.mem_append.mpr (Or.inl (List.mem_append.mpr
                (Or.inr (List.mem_cons.mpr (Or.inr h1)))))
        refine ⟨?_, ?_, ?_, ?_⟩
        · intro st2 u2 h2
          rw [heq] at h2
          exact absurd h2 (by simp)
        · rw [heq]; simp
        · intro path hp
          rw [heq] at hp
          simp only [Except.error.injEq, BuildErr.cycle.injEq] at hp
          rw [← hp]
          exact hgood
        · intro _
          exact ⟨stack ++ [m], heq⟩
      · -- the child-processing branch
        have hnd2 : (stack ++ [m]).Nodup := by
          refine List.Nodup.append hnd (List.nodup_singleton _) ?_
          intro x hx hx2
          simp only [List.mem_singleton] at hx2
          subst hx2
          exact hms hx
        have hmkeys : m ∈ keysOf (nodesDict tm) := by
          cases hmn : dlookup (managerNodesD tm) m with
          | some n2 => exact dlookup_mem_keys (managerNodesD_sub hmn)
          | none =>
            have hsn : dlookup st.nodes m = some node := by
              rw [hmn] at hnode
              simpa [Option.orElse] using hnode
            rw [hphi.1] at hsn
            exact dlookup_mem_keys hsn
        have hkeys2 : ∀ x ∈ stack ++ [m], x ∈ keysOf (nodesDict tm) := by
          intro x hx
          rcases List.mem_append.mp hx with h1 | h1
          · exact hkeys x h1
          · simp only [List.mem_singleton] at h1
            subst h1
            exact hmkeys
        have hfuel2 : (nodesDict tm).length + 1 ≤ f + (stack ++ [m]).length := by
          simp only [List.length_append, List.length_singleton]
          omega
        have hlast : ∀ y ∈ (stack ++ [m]).getLast?, y = m := by
          intro y hy
          rw [List.getLast?_concat] at hy
          simp only [Option.mem_def, Option.some.injEq] at hy
          exact hy.symm
        have hloop : ∀ (l : List String) (st3 : BState), PhiCyc tm cyc st3 →
            (∀ c ∈ l, c ∈ resolveChildren (nodesDict tm) tm.edges m ["agent", "teamManager"]) →
            (∀ st4 us, ensureChildren env tm
                (fun s c => ensureManagerUnit env tm f s c (stack ++ [m])) st3 l =
              .ok (st4, us) → PhiCyc tm cyc st4) ∧
            ensureChildren env tm
              (fun s c => ensureManagerUnit env tm f s c (stack ++ [m])) st3 l ≠
              .error .fuel ∧
            (∀ path, ensureChildren env tm
                (fun s c => ensureManagerUnit env tm f s c (stack ++ [m])) st3 l =
              .error (.cycle path) →
              ∃ c2, IsMgrCycle tm c2 ∧ ∀ x ∈ c2, x ∈ path) ∧
            ((∃ c ∈ l, c ∈ cyc) → ∃ path, ensureChildren env tm
                (fun s c => ensureManagerUnit env tm f s c (stack ++ [m])) st3 l =
              .error (.cycle path)) := by
          intro l
          induction l with
          | nil =>
            intro st3 hphi3 _
            refine ⟨?_, ?_, ?_, ?_⟩
            · intro st4 us h4
              rw [ensureChildren_nil] at h4
              simp only [Except.ok.injEq, Prod.mk.injEq] at h4
              rw [← h4.1]
              exact hphi3
            · rw [ensureChildren_nil]; simp
            · intro path hp
              rw [ensureChildren_nil] at hp
              exact absurd hp (by simp)
            · intro h
              simp at h
          | cons c cs ihl =>
            intro st3 hphi3 hsub
            have hcres : c ∈ resolveChildren (nodesDict tm) tm.edges m
                ["agent", "teamManager"] := hsub c (List.mem_cons_self _ _)
            obtain ⟨cn0, hcn0, hkind0⟩ := resolveChildren_node hcres
            have hkind1 : cn0.kind = "agent" ∨ cn0.kind = "teamManager" := by
              rcases hkind0 with h0 | h0
              · simp at h0
              · simpa using h0
            have hlst3 : dlookup st3.nodes c = some cn0 := by
              rw [hphi3.1]
              exact hcn0
            rcases hkind1 with hk | hk
            · -- agent child: the factory call cannot touch manager units
              have hcnotcyc : c ∉ cyc := by
                intro hc
                have hck := cyc_member_node hcyc c hc
                rw [hcn0] at hck
                simp only [Option.map_some', Option.some.injEq] at hck
                rw [hk] at hck
                exact absurd hck (by decide)
              have heq2 := ensureChildren_cons_agent env tm
                (fun s c2 => ensureManagerUnit env tm f s c2 (stack ++ [m])) st3 c cs cn0
                hlst3 hk
              obtain ⟨tok, tfuel, tgood, tcyc⟩ := ihl ((buildAgentUnit env tm st3 c).1)
                (buildAgentUnit_phi env st3 c hphi3)
                (fun x hx => hsub x (List.mem_cons_of_mem _ hx))
              rw [heq2]
              cases hrec : ensureChildren env tm
                  (fun s c2 => ensureManagerUnit env tm f s c2 (stack ++ [m]))
                  ((buildAgentUnit env tm st3 c).1) cs with
              | error e =>
                dsimp only
                refine ⟨?_, ?_, ?_, ?_⟩
                · intro st4 us h4
                  exact absurd h4 (by simp)
                · intro h4
                  injection h4 with h5
                  rw [h5] at hrec
                  exact tfuel hrec
                · intro path hp
                  injection hp with h5
                  rw [h5] at hrec
                  exact tgood path hrec
                · intro _
                  cases e with
                  | fuel => exact absurd hrec tfuel
                  | cycle p => exact ⟨p, rfl⟩
              | ok r =>
                obtain ⟨st2r, usr⟩ := r
                dsimp only
                refine ⟨?_, ?_, ?_, ?_⟩
                · intro st4 us h4
                  simp only [Except.ok.injEq, Prod.mk.injEq] at h4
                  rw [← h4.1]
                  exact tok st2r usr hrec
                · simp
                · intro path hp
                  exact absurd hp (by simp)
                · intro hex
                  exfalso
                  obtain ⟨c0, hc0, hc0c⟩ := hex
                  rcases List.mem_cons.mp hc0 with h5 | h5
                  · exact hcnotcyc (h5 ▸ hc0c)
                  · obtain ⟨p, hp⟩ := tcyc ⟨c0, h5, hc0c⟩
                    rw [hp] at hrec
                    exact Except.noConfusion hrec
            · -- manager child: recurse with the grown stack
              have hedge : mgrEdge tm m c := by
                refine ⟨hcres, ?_⟩
                rw [hcn0]
                simp [hk]
              have hchain2 : List.Chain' (mgrEdge tm) ((stack ++ [m]) ++ [c]) := by
                refine List.Chain'.append hchain (List.chain'_singleton c) ?_
                intro x hx y hy
                simp only [List.head?_cons, Option.mem_def, Option.some.injEq] at hy
                rw [hlast x hx, ← hy]
                exact hedge
              obtain ⟨eok, efuel, egood, ecyc⟩ := ih st3 c (stack ++ [m]) hphi3 hnd2
                hkeys2 hchain2 hfuel2
              have heq2 := ensureChildren_cons_mgr env tm
                (fun s c2 => ensureManagerUnit env tm f s c2 (stack ++ [m])) st3 c cs cn0
                hlst3 hk
              rw [heq2]
              beta_reduce
              cases hres : ensureManagerUnit env tm f st3 c (stack ++ [m]) with
              | error e =>
                dsimp only
                refine ⟨?_, ?_, ?_, ?_⟩
                · intro st4 us h4
                  exact absurd h4 (by simp)
                · intro h4
                  injection h4 with h5
                  rw [h5] at hres
                  exact efuel hres
                · intro path hp
                  injection hp with h5
                  rw [h5] at hres
                  exact egood path hres
                · intro _
                  cases e with
                  | fuel => exact absurd hres efuel
                  | cycle p => exact ⟨p, rfl⟩
              | ok r =>
                obtain ⟨st1r, ur⟩ := r
                have hphi4 : PhiCyc tm cyc st1r := eok st1r ur hres
                obtain ⟨tok, tfuel, tgood, tcyc⟩ := ihl st1r hphi4
                  (fun x hx => hsub x (List.mem_cons_of_mem _ hx))
                dsimp only
                cases hrec : ensureChildren env tm
                    (fun s c2 => ensureManagerUnit env tm f s c2 (stack ++ [m])) st1r cs with
                | error e =>
                  dsimp only
                  refine ⟨?_, ?_, ?_, ?_⟩
                  · intro st4 us h4
                    exact absurd h4 (by simp)
                  · intro h4
                    injection h4 with h5
                    rw [h5] at hrec
                    exact tfuel hrec
                  · intro path hp
                    injection hp with h5
                    rw [h5] at hrec
                    exact tgood path hrec
                  · intro _
                    cases e with
                    | fuel => exact absurd hrec tfuel
                    | cycle p => exact ⟨p, rfl⟩
                | ok r2 =>
                  obtain ⟨st2r, usr⟩ := r2
                  dsimp only
                  refine ⟨?_, ?_, ?_, ?_⟩
                  · intro st4 us h4
                    simp only [Except.ok.injEq, Prod.mk.injEq] at h4
                    rw [← h4.1]
                    exact tok st2r usr hrec
                  · simp
                  · intro path hp
                    exact absurd hp (by simp)
                  · intro hex
                    exfalso
                    obtain ⟨c0, hc0, hc0c⟩ := hex
                    rcases List.mem_cons.mp hc0 with h5 | h5
                    · obtain ⟨p, hp⟩ := ecyc (h5 ▸ hc0c)
                      rw [hp] at hres
                      exact Except.noConfusion hres
                    · obtain ⟨p, hp⟩ := tcyc ⟨c0, h5, hc0c⟩
                      rw [hp] at hrec
                      exact Except.noConfusion hrec
        -- assemble the branch
        have heq : ensureManagerUnit env tm (f + 1) st m stack =
            match ensureChildren env tm
                (fun s c => ensureManagerUnit env tm f s c (stack ++ [m])) st
                (resolveChildren st.nodes tm.edges m ["agent", "teamManager"]) with
            | .error e => .error e
            | .ok (st2, us) =>
              .ok ({ st2 with
                      managerUnits := dictInsert st2.managerUnits m
                        (mkManagerUnit node us "teamManager")
                      executionUnits := dictInsert st2.executionUnits m
                        (mkManagerUnit node us "teamManager") },
                   some (mkManagerUnit node us "teamManager")) := by
          simp only [ensureManagerUnit, hmu, hnode]
          rw [if_neg hms]
        have hchilds : resolveChildren st.nodes tm.edges m ["agent", "teamManager"] =
            resolveChildren (nodesDict tm) tm.edges m ["agent", "teamManager"] := by
          rw [hphi.1]
        rw [hchilds] at heq
        obtain ⟨lok, lfuel, lgood, lcyc⟩ := hloop
          (resolveChildren (nodesDict tm) tm.edges m ["agent", "teamManager"]) st hphi
          (fun c hc => hc)
        rw [heq]
        cases hres : ensureChildren env tm
            (fun s c => ensureManagerUnit env tm f s c (stack ++ [m])) st
            (resolveChildren (nodesDict tm) tm.edges m ["agent", "teamManager"]) with
        | error e =>
          dsimp only
          refine ⟨?_, ?_, ?_, ?_⟩
          · intro st2 u2 h2
            exact absurd h2 (by simp)
          · intro h4
            injection h4 with h5
            rw [h5] at hres
            exact lfuel hres
          · intro path hp
            injection hp with h5
            rw [h5] at hres
            exact lgood path hres
          · intro _
            cases e with
            | fuel => exact absurd hres lfuel
            | cycle p => exact ⟨p, rfl⟩
        | ok r =>
          obtain ⟨str, usr⟩ := r
          have hmnotcyc : m ∉ cyc := by
            intro hmc
            obtain ⟨y, hy, hyedge⟩ := cyc_member_succ hcyc m hmc
            obtain ⟨p, hp⟩ := lcyc ⟨y, hyedge.1, hy⟩
            rw [hp] at hres
            exact Except.noConfusion hres
          have hphir : PhiCyc tm cyc str := lok str usr hres
          dsimp only
          refine ⟨?_, ?_, ?_, ?_⟩
          · intro st2 u2 h2
            simp only [Except.ok.injEq, Prod.mk.injEq] at h2
            rw [← h2.1]
            refine ⟨hphir.1, ?_⟩
            intro x hx
            have hxm : x ≠ m := fun hxe => hmnotcyc (hxe ▸ hx)
            simp only
            rw [dlookup_dictInsert_ne _ _ _ _ (fun hme => hxm hme.symm)]
            exact hphir.2 x hx
          · simp
          · intro path hp
            exact absurd hp (by simp)
          · intro hmc
            exact absurd hmc hmnotcyc
/-- `EnsureGood` holds at every fuel. -/
theorem ensureGood_all (env : Env) (tm : TM) (cyc : List String)
    (hcyc : IsMgrCycle tm cyc) : ∀ f, EnsureGood env tm cyc f := by
  intro f
  induction f with
  | zero => exact ensureGood_zero env tm cyc
  | succ f ihf => exact ensureGood_succ env tm cyc hcyc f ihf

theorem buildToolStep_fields (env : Env) (s : BState) (p : String × Node) :
    (buildToolStep env s p).nodes = s.nodes ∧
    (buildToolStep env s p).managerUnits = s.managerUnits := by
  unfold buildToolStep
  split
  · exact ⟨rfl, rfl⟩
  · dsimp only
    split
    · exact ⟨rfl, rfl⟩
    · exact ⟨rfl, rfl⟩

/-- Folding any step that leaves `nodes` and `managerUnits` alone preserves
the invariant. -/
theorem foldl_phi {β : Type} {tm : TM} {cyc : List String} (F : BState → β → BState)
    (hF : ∀ s b, (F s b).nodes = s.nodes ∧ (F s b).managerUnits = s.managerUnits) :
    ∀ (l : List β) (acc : BState), PhiCyc tm cyc acc → PhiCyc tm cyc (l.foldl F acc) := by
  intro l
  induction l with
  | nil => intro acc h; exact h
  | cons b rest ih =>
    intro acc h
    simp only [List.foldl_cons]
    refine ih _ ⟨(hF acc b).1.trans h.1, ?_⟩
    rw [(hF acc b).2]
    exact h.2

theorem buildTools_phi {tm : TM} {cyc : List String} (env : Env) (st : BState)
    (h : PhiCyc tm cyc st) : PhiCyc tm cyc (buildTools env st) :=
  foldl_phi (buildToolStep env) (buildToolStep_fields env) st.nodes st h

/-- The manager loop of `build()` raises a cycle error as soon as its id
list meets the cycle. -/
theorem buildManagersLoop_cycle (env : Env) (tm : TM) (cyc : List String)
    (hcyc : IsMgrCycle tm cyc) :
    ∀ (l : List String) (st3 : BState), PhiCyc tm cyc st3 → (∃ x ∈ l, x ∈ cyc) →
      ∃ path, buildManagersLoop env tm ((nodesDict tm).length + 1) st3 l =
          .error (.cycle path) ∧
        ∃ c2, IsMgrCycle tm c2 ∧ ∀ x ∈ c2, x ∈ path := by
  intro l
  induction l with
  | nil =>
    intro st3 _ hex
    simp at hex
  | cons m ms ih =>
    intro st3 hphi3 hex
    obtain ⟨eok, efuel, egood, ecyc⟩ :=
      ensureGood_all env tm cyc hcyc ((nodesDict tm).length + 1) st3 m [] hphi3
        List.nodup_nil (by intro x hx; simp at hx)
        (by simp) (by simp)
    cases hres : ensureManagerUnit env tm ((nodesDict tm).length + 1) st3 m [] with
    | error e =>
      have heq : buildManagersLoop env tm ((nodesDict tm).length + 1) st3 (m :: ms) =
          .error e := by
        simp only [buildManagersLoop, hres]
      cases e with
      | fuel => exact absurd hres efuel
      | cycle p =>
        refine ⟨p, heq, ?_⟩
        exact egood p hres
    | ok r =>
      obtain ⟨st4, u⟩ := r
      have heq : buildManagersLoop env tm ((nodesDict tm).length + 1) st3 (m :: ms) =
          buildManagersLoop env tm ((nodesDict tm).length + 1) st4 ms := by
        simp only [buildManagersLoop, hres]
      rw [heq]
      obtain ⟨x, hxl, hxc⟩ := hex
      rcases List.mem_cons.mp hxl with h1 | h1
      · exfalso
        obtain ⟨p, hp⟩ := ecyc (h1 ▸ hxc)
        rw [hp] at hres
        exact Except.noConfusion hres
      · exact ih st4 (eok st4 u hres) ⟨x, h1, hxc⟩

/-- A manager cycle is nonempty. -/
theorem IsMgrCycle.ne_nil {tm : TM} {c2 : List String} (h : IsMgrCycle tm c2) :
    c2 ≠ [] := by
  intro he
  rw [he] at h
  exact h

/-- C1 (confirmed).  On any project graph whose manager→manager edges
contain a cycle, `build()` terminates by raising the structural
`ValueError` — in the embedding, it returns the cycle error (never the
fuel-exhaustion marker, so the recursion cannot hang), and the error's
path, which the raised message renders with `" -> "` separators, contains
every manager id of a genuine manager cycle of the graph. -/
theorem build_cycle_error (env : Env) (tm : TM) (cyc : List String)
    (hcyc : IsMgrCycle tm cyc) :
    ∃ path, build env tm (initState tm) = .error (.cycle path) ∧
      (BuildErr.cycle path).message =
        "Circular team manager dependency detected: " ++
          String.intercalate " -> " path ∧
      ∃ c2, IsMgrCycle tm c2 ∧ c2 ≠ [] ∧ ∀ x ∈ c2, x ∈ path := by
  have hphi0 : PhiCyc tm cyc (initState tm) := ⟨rfl, fun x _ => rfl⟩
  have hphi1 : PhiCyc tm cyc (buildTools env (initState tm)) :=
    buildTools_phi env _ hphi0
  have hphi2 : PhiCyc tm cyc
      ((agentNodeIds tm).foldl (fun s a => (buildAgentUnit env tm s a).1)
        (buildTools env (initState tm))) :=
    foldl_phi _ (fun s a => buildAgentUnit_fields env tm s a) _ _ hphi1
  have hhead : ∃ x ∈ managerNodeIds tm, x ∈ cyc := by
    obtain ⟨c, cs, hc⟩ := List.exists_cons_of_ne_nil hcyc.ne_nil
    have hcmem : c ∈ cyc := by rw [hc]; exact List.mem_cons_self _ _
    have hk := cyc_member_node hcyc c hcmem
    cases hn : dlookup (nodesDict tm) c with
    | none => rw [hn] at hk; simp at hk
    | some n =>
      rw [hn] at hk
      simp only [Option.map_some', Option.some.injEq] at hk
      exact ⟨c, mem_managerNodeIds_of_lookup hn hk, hcmem⟩
  obtain ⟨path, hloopres, hgood⟩ := buildManagersLoop_cycle env tm cyc hcyc
    (managerNodeIds tm) _ hphi2 hhead
  refine ⟨path, ?_, rfl, ?_⟩
  · unfold build
    rw [if_neg (by simp [initState])]
    dsimp only
    simp only [initState] at hloopres ⊢
    rw [hloopres]
  · obtain ⟨c2, h1, h2⟩ := hgood
    exact ⟨c2, h1, h1.ne_nil, h2⟩

def envC1 : Env :=
  { buildTool := fun _ => true
    createAgent := fun _ _ => some (fun _ => { updates := [] }) }

def tmC1 : TM :=
  { graphNodes :=
      [ { id := "m1", kind := "teamManager", data := { label := "M1" } }
      , { id := "m2", kind := "teamManager", data := { label := "M2" } }
      , { id := "m3", kind := "teamManager", data := { label := "M3" } } ]
    edges :=
      [ { source := some "m1", target := some "m2" }
      , { source := some "m2", target := some "m3" }
      , { source := some "m3", target := some "m1" } ] }

/-- Witness for C1 at the concrete three-manager cycle m1 → m2 → m3 → m1. -/
theorem build_cycle_error_witness :
    IsMgrCycle tmC1 ["m1", "m2", "m3"] ∧
    ∃ path, build envC1 tmC1 (initState tmC1) = .error (.cycle path) ∧
      (BuildErr.cycle path).message =
        "Circular team manager dependency detected: " ++
          String.intercalate " -> " path ∧
      ∃ c2, IsMgrCycle tmC1 c2 ∧ c2 ≠ [] ∧ ∀ x ∈ c2, x ∈ path := by
  have hcyc : IsMgrCycle tmC1 ["m1", "m2", "m3"] := by
    refine List.Chain.cons ⟨?_, ?_⟩ (List.Chain.cons ⟨?_, ?_⟩
      (List.Chain.cons ⟨?_, ?_⟩ List.Chain.nil)) <;> decide
  exact ⟨hcyc, build_cycle_error envC1 tmC1 ["m1", "m2", "m3"] hcyc⟩

end TeamMgr
